import Mathlib

/-!
# DemoConfig (generated protobuf binding) — a verification development

Shallow embedding of `cue.mod/pkg/_gen/filters/network/demo.pb.go`.

Conventions of the embedding

* A Go `string` and a Go `[]byte` are sequences of bytes; a byte is a natural
  number below 256, so both are `List Nat`.  The nil slice and the empty slice
  have the same contents and are both `[]` unless a variable is compared with
  or assigned `nil` in the source, in which case it is an `Option`.
* A method with a pointer receiver is a function of the receiver's pointee; it
  returns the pointee as it is after the call (and the result, when there is
  one).  A nil receiver is `none`.
* Code of the protobuf runtime (`protoimpl`) that the file calls is a field of
  `Runtime`; every theorem about the file holds for every runtime.
-/

set_option maxRecDepth 100000

namespace Demo

/-- A Go string or byte slice: its bytes in order. -/
abbrev Bytes := List Nat

/-- Every element is a byte. -/
def isBytes (bs : Bytes) : Prop := ∀ b ∈ bs, b < 256

/-- The struct `DemoConfig` of the source, field by field.  `state` is the
`protoimpl.MessageState`, whose only content is an atomic pointer to a
message info: `none` is the nil pointer, `some i` points at
`file_source_filters_network_proto_demo_proto_msgTypes[i]`. -/
structure DemoConfig where
  state : Option Nat
  sizeCache : Int
  unknownFields : Bytes
  Message : Bytes
deriving DecidableEq, Repr

/-- The composite literal `DemoConfig{}`: every field has its zero value. -/
def DemoConfig.zero : DemoConfig :=
  { state := none, sizeCache := 0, unknownFields := [], Message := [] }

/-- Source `func (x *DemoConfig) Reset()`: assigns the zero value to the
pointee and, when `protoimpl.UnsafeEnabled`, stores the pointer to
`msgTypes[0]` in its message state. -/
def DemoConfig.Reset (unsafeEnabled : Bool) (_x : DemoConfig) : DemoConfig :=
  let x := DemoConfig.zero
  if unsafeEnabled then { x with state := some 0 } else x

/-- Source `func (x *DemoConfig) GetMessage() string`: the field when the
receiver is not nil, the empty string otherwise; there is no assignment in
its body, so the pointee after the call is the pointee before it. -/
def DemoConfig.GetMessage (x : Option DemoConfig) : Bytes × Option DemoConfig :=
  match x with
  | some v => (v.Message, x)
  | none => ([], x)

/-! ## Package-level variables and functions -/

/-- Initial value of the package variable
`file_source_filters_network_proto_demo_proto_rawDesc`: the byte literal of
the source, byte for byte. -/
def file_source_filters_network_proto_demo_proto_rawDesc : Bytes := [
  0x0a, 0x27, 0x73, 0x6f, 0x75, 0x72, 0x63, 0x65, 0x2f, 0x66, 0x69, 0x6c, 0x74, 0x65, 0x72, 0x73,
  0x2f, 0x6e, 0x65, 0x74, 0x77, 0x6f, 0x72, 0x6b, 0x2f, 0x70, 0x72, 0x6f, 0x74, 0x6f, 0x2f, 0x64,
  0x65, 0x6d, 0x6f, 0x2e, 0x70, 0x72, 0x6f, 0x74, 0x6f, 0x12, 0x2d, 0x67, 0x72, 0x65, 0x79, 0x6d,
  0x61, 0x74, 0x74, 0x65, 0x72, 0x5f, 0x69, 0x6f, 0x2e, 0x67, 0x6d, 0x5f, 0x70, 0x72, 0x6f, 0x78,
  0x79, 0x2e, 0x73, 0x6f, 0x75, 0x72, 0x63, 0x65, 0x2e, 0x66, 0x69, 0x6c, 0x74, 0x65, 0x72, 0x73,
  0x2e, 0x6e, 0x65, 0x74, 0x77, 0x6f, 0x72, 0x6b, 0x22, 0x26, 0x0a, 0x0a, 0x44, 0x65, 0x6d, 0x6f,
  0x43, 0x6f, 0x6e, 0x66, 0x69, 0x67, 0x12, 0x18, 0x0a, 0x07, 0x6d, 0x65, 0x73, 0x73, 0x61, 0x67,
  0x65, 0x18, 0x01, 0x20, 0x01, 0x28, 0x09, 0x52, 0x07, 0x6d, 0x65, 0x73, 0x73, 0x61, 0x67, 0x65,
  0x42, 0x40, 0x5a, 0x3e, 0x67, 0x69, 0x74, 0x68, 0x75, 0x62, 0x2e, 0x63, 0x6f, 0x6d, 0x2f, 0x67,
  0x72, 0x65, 0x79, 0x6d, 0x61, 0x74, 0x74, 0x65, 0x72, 0x2d, 0x69, 0x6f, 0x2f, 0x67, 0x6d, 0x2d,
  0x70, 0x72, 0x6f, 0x78, 0x79, 0x2f, 0x73, 0x6f, 0x75, 0x72, 0x63, 0x65, 0x2f, 0x66, 0x69, 0x6c,
  0x74, 0x65, 0x72, 0x73, 0x2f, 0x6e, 0x65, 0x74, 0x77, 0x6f, 0x72, 0x6b, 0x2f, 0x70, 0x72, 0x6f,
  0x74, 0x6f, 0x62, 0x06, 0x70, 0x72, 0x6f, 0x74, 0x6f, 0x33]

/-- The three struct fields whose address the exporter closure can return. -/
inductive Slot where
  | state
  | sizeCache
  | unknownFields
deriving DecidableEq, Repr

/-- The closure that `init` assigns to `msgTypes[0].Exporter`: the field of
`v` whose address it returns for index `i`, `none` for the `default` branch
(a nil interface). -/
def exporter (i : Int) : Option Slot :=
  if i = 0 then some Slot.state
  else if i = 1 then some Slot.sizeCache
  else if i = 2 then some Slot.unknownFields
  else none

/-- Elements of `file_source_filters_network_proto_demo_proto_goTypes`:
the only one is `(*DemoConfig)(nil)`. -/
inductive GoType where
  | ptrDemoConfig
deriving DecidableEq, Repr

/-- The struct `protoimpl.DescBuilder` as the source fills it in. -/
structure DescBuilder where
  GoPackagePath : String
  RawDescriptor : Option Bytes
  NumEnums : Int
  NumMessages : Int
  NumExtensions : Int
  NumServices : Int
deriving DecidableEq, Repr

/-- The struct `protoimpl.TypeBuilder` as the source fills it in; `MI` is the
runtime's `protoimpl.MessageInfo`. -/
structure TypeBuilder (MI : Type) where
  File : DescBuilder
  GoTypes : Option (List GoType)
  DependencyIndexes : Option (List Int)
  MessageInfos : List MI

/-- What `TypeBuilder.Build` leaves behind: the `File` of its result (an
interface value, `none` when nil), the contents of the `MessageInfos` slice,
which it writes through, and the state `W` of the runtime (its registries). -/
structure BuildOut (FD MI W : Type) where
  File : Option FD
  MessageInfos : List MI
  world : W

/-- The parts of `protoimpl` the file uses and does not define.  `Build` is
`none` when it panics; what it can change is what `BuildOut` holds, so it is
taken not to write into the bytes of the raw descriptor, which `rawDescData`
shares with `rawDesc`. -/
structure Runtime (FD MI W : Type) where
  UnsafeEnabled : Bool
  CompressGZIP : Bytes → Bytes
  zeroMessageInfo : MI
  setExporter : MI → (Int → Option Slot) → MI
  PkgPath : String
  Build : TypeBuilder MI → W → Option (BuildOut FD MI W)

/-- The package-level variables, each under the last component of its name
(`File` is `File_source_filters_network_proto_demo_proto`, the others are
`file_source_filters_network_proto_demo_proto_<field>`), then the state of the
runtime and two counters that record the calls made into it: `builds` counts
calls of `Build`, `gzipInputs` lists the arguments of `CompressGZIP` in call
order. -/
structure Pkg (FD MI W : Type) where
  File : Option FD
  rawDesc : Option Bytes
  rawDescOnce : Bool
  rawDescData : Bytes
  msgTypes : List MI
  goTypes : Option (List GoType)
  depIdxs : Option (List Int)
  world : W
  builds : Nat
  gzipInputs : List Bytes

/-- The package variables after their initialisers have run, in dependency
order, and before any `init` function: `rawDescData` is bound to the value of
`rawDesc`, `msgTypes` is `make([]protoimpl.MessageInfo, 1)`. -/
def Pkg.initial {FD MI W : Type} (rt : Runtime FD MI W) (w : W) : Pkg FD MI W :=
  { File := none
    rawDesc := some file_source_filters_network_proto_demo_proto_rawDesc
    rawDescOnce := false
    rawDescData := file_source_filters_network_proto_demo_proto_rawDesc
    msgTypes := [rt.zeroMessageInfo]
    goTypes := some [GoType.ptrDemoConfig]
    depIdxs := some [0, 0, 0, 0, 0]
    world := w
    builds := 0
    gzipInputs := [] }

/-- The `protoimpl.TypeBuilder` literal of `init`, over the package variables
as they are when it is evaluated. -/
def initTypeBuilder {FD MI W : Type} (rt : Runtime FD MI W) (s : Pkg FD MI W)
    (msgTypes : List MI) : TypeBuilder MI :=
  { File :=
      { GoPackagePath := rt.PkgPath
        RawDescriptor := s.rawDesc
        NumEnums := 0
        NumMessages := 1
        NumExtensions := 0
        NumServices := 0 }
    GoTypes := s.goTypes
    DependencyIndexes := s.depIdxs
    MessageInfos := msgTypes }

/-- Source `func file_source_filters_network_proto_demo_proto_init()`.
`none` is a panic: of `Build`, or of the index expression `msgTypes[0]` on an
empty slice. -/
def file_source_filters_network_proto_demo_proto_init {FD MI W : Type}
    (rt : Runtime FD MI W) (s : Pkg FD MI W) : Option (Pkg FD MI W) :=
  if s.File.isSome then some s
  else
    let msgTypes? : Option (List MI) :=
      if !rt.UnsafeEnabled then
        match s.msgTypes with
        | [] => none
        | m :: ms => some (rt.setExporter m exporter :: ms)
      else some s.msgTypes
    match msgTypes? with
    | none => none
    | some msgTypes =>
      match rt.Build (initTypeBuilder rt s msgTypes) s.world with
      | none => none
      | some out =>
        some { s with
          File := out.File
          rawDesc := none
          goTypes := none
          depIdxs := none
          msgTypes := out.MessageInfos
          world := out.world
          builds := s.builds + 1 }

/-- Source `func file_source_filters_network_proto_demo_proto_rawDescGZIP()`:
`rawDescOnce.Do` runs the closure when the once has not fired and marks it
fired; the function returns `rawDescData`. -/
def file_source_filters_network_proto_demo_proto_rawDescGZIP {FD MI W : Type}
    (rt : Runtime FD MI W) (s : Pkg FD MI W) : Bytes × Pkg FD MI W :=
  let s1 :=
    if s.rawDescOnce then s
    else { s with
      rawDescData := rt.CompressGZIP s.rawDescData
      gzipInputs := s.gzipInputs ++ [s.rawDescData]
      rawDescOnce := true }
  (s1.rawDescData, s1)

/-- Source `func (*DemoConfig) Descriptor() ([]byte, []int)`. -/
def DemoConfig.Descriptor {FD MI W : Type}
    (rt : Runtime FD MI W) (s : Pkg FD MI W) : (Bytes × List Int) × Pkg FD MI W :=
  let r := file_source_filters_network_proto_demo_proto_rawDescGZIP rt s
  ((r.1, [0]), r.2)

/-- The calls a client of the package can make on its package-level state. -/
inductive Call where
  | init
  | rawDescGZIP
  | Descriptor
deriving DecidableEq, Repr

/-- What a call returns. -/
inductive Ret where
  | unit
  | bytes (b : Bytes)
  | descriptor (b : Bytes) (path : List Int)
deriving DecidableEq, Repr

/-- One call: its result and the package state after it, `none` on a panic. -/
def step {FD MI W : Type} (rt : Runtime FD MI W) (c : Call) (s : Pkg FD MI W) :
    Option (Ret × Pkg FD MI W) :=
  match c with
  | Call.init =>
    match file_source_filters_network_proto_demo_proto_init rt s with
    | none => none
    | some s1 => some (Ret.unit, s1)
  | Call.rawDescGZIP =>
    let r := file_source_filters_network_proto_demo_proto_rawDescGZIP rt s
    some (Ret.bytes r.1, r.2)
  | Call.Descriptor =>
    let r := DemoConfig.Descriptor rt s
    some (Ret.descriptor r.1.1 r.1.2, r.2)

/-- A sequence of calls, left to right: the results in order and the final
state. -/
def run {FD MI W : Type} (rt : Runtime FD MI W) : List Call → Pkg FD MI W →
    Option (List Ret × Pkg FD MI W)
  | [], s => some ([], s)
  | c :: cs, s =>
    match step rt c s with
    | none => none
    | some (r, s1) =>
      match run rt cs s1 with
      | none => none
      | some (rs, s2) => some (r :: rs, s2)

/-- `n` calls of `init` in a row. -/
def initTimes {FD MI W : Type} (rt : Runtime FD MI W) : Nat → Pkg FD MI W →
    Option (Pkg FD MI W)
  | 0, s => some s
  | n + 1, s =>
    match file_source_filters_network_proto_demo_proto_init rt s with
    | none => none
    | some s1 => initTimes rt n s1

/-! ## Wire format -/

/-- Modelled from the spec: the base-128 varint in front of every entry (its
tag and wire type) and in front of every length-delimited payload; the source
leaves reading it to the protobuf runtime.  Seven bits per byte, least
significant group first, a byte of 128 or more announces another byte.
Returns the value and the number of bytes read, `none` when the bytes end
inside the varint ("a tag/wire-type pair is truncated"). -/
def consumeVarint : Bytes → Option (Nat × Nat)
  | [] => none
  | b :: rest =>
    if b < 128 then some (b, 1)
    else
      match consumeVarint rest with
      | none => none
      | some (v, n) => some (b % 128 + 128 * v, n + 1)

/-- Modelled from the spec: the varint of a number, the inverse of
`consumeVarint` on its shortest encoding; the source leaves writing it to the
protobuf runtime. -/
def appendVarint (v : Nat) : Bytes :=
  if v < 128 then [v] else (v % 128 + 128) :: appendVarint (v / 128)
termination_by v
decreasing_by omega

/-- Modelled from the spec: the value part of an entry that is not a group,
by wire type; the source leaves reading it to the protobuf runtime.  Wire
type 0 is a varint, 1 is eight bytes, 2 is length-delimited (a varint byte
count, then that many bytes), 5 is four bytes.  Returns the number a varint
or a length prefix holds, the payload bytes, and the number of bytes read;
`none` when the bytes end too early ("a length prefix claims more bytes than
remain") or the wire type is none of these.  Numbers are not cut to 64
bits. -/
def consumeScalar (wt : Nat) (b : Bytes) : Option (Nat × Bytes × Nat) :=
  if wt = 0 then
    match consumeVarint b with
    | none => none
    | some (v, n) => some (v, [], n)
  else if wt = 1 then
    if b.length < 8 then none else some (0, b.take 8, 8)
  else if wt = 2 then
    match consumeVarint b with
    | none => none
    | some (len, n) =>
      if b.length - n < len then none else some (len, (b.drop n).take len, n + len)
  else if wt = 5 then
    if b.length < 4 then none else some (0, b.take 4, 4)
  else none

/-- Modelled from the spec: the value of a group entry (wire type 3) with
tag `num`, which the runtime keeps with the unknown fields like any other
entry; the source leaves reading it to the protobuf runtime.  The value is a
run of entries, groups among them, up to the end-group key (wire type 4) of
the same tag.  Returns the number of bytes read, end-group key included;
`none` when the bytes end before that key, a nested value cannot be read, or
an end-group key has another tag.  Every round reads a key of at least one
byte, so `fuel` rounds are enough for `fuel` bytes. -/
def consumeGroup : Nat → Nat → Bytes → Option Nat
  | 0, _, _ => none
  | fuel + 1, num, b =>
    match consumeVarint b with
    | none => none
    | some (key, n) =>
      if key % 8 = 4 then
        if key / 8 = num then some n else none
      else
        let inner : Option Nat :=
          if key % 8 = 3 then consumeGroup fuel (key / 8) (b.drop n)
          else
            match consumeScalar (key % 8) (b.drop n) with
            | none => none
            | some (_, _, m) => some m
        match inner with
        | none => none
        | some m =>
          match consumeGroup fuel num (b.drop (n + m)) with
          | none => none
          | some r => some (n + m + r)

/-- Modelled from the spec: the value part of an entry with tag `num` and
wire type `wt`; the source leaves reading it to the protobuf runtime.  A
group is read through its end-group key and has no payload of its own; the
other wire types are those of `consumeScalar`.  An end-group key that closes
no group, and the wire types 6 and 7, have no value to read: `none`. -/
def consumeFieldValue (num wt : Nat) (b : Bytes) : Option (Nat × Bytes × Nat) :=
  if wt = 3 then
    match consumeGroup b.length num b with
    | none => none
    | some m => some (0, [], m)
  else consumeScalar wt b

/-- One entry of the wire format: its tag (field number), its wire type, the
number its varint or length prefix holds, its payload, and the bytes it was
read from. -/
structure Entry where
  num : Nat
  wt : Nat
  val : Nat
  payload : Bytes
  raw : Bytes
deriving DecidableEq, Repr

/-- Modelled from the spec: reading one entry ("walks tag/length/value
triples"); the source leaves it to the protobuf runtime.  The first varint is
`8 * tag + wire type`.  Returns the entry and the number of bytes read. -/
def consumeEntry (b : Bytes) : Option (Entry × Nat) :=
  match consumeVarint b with
  | none => none
  | some (key, n) =>
    match consumeFieldValue (key / 8) (key % 8) (b.drop n) with
    | none => none
    | some (v, payload, m) =>
      some ({ num := key / 8, wt := key % 8, val := v, payload := payload,
              raw := b.take (n + m) }, n + m)

/-- An entry is well formed when reading its own bytes gives it back and uses
all of them. -/
def Entry.wellFormed (e : Entry) : Prop :=
  consumeEntry e.raw = some (e, e.raw.length)

instance (e : Entry) : Decidable e.wellFormed := by
  unfold Entry.wellFormed
  infer_instance

/-- The entry that carries the `message` field: tag 1, length-delimited. -/
def Entry.isMessage (e : Entry) : Bool :=
  e.num = 1 && e.wt = 2

/-- The bytes of a sequence of entries, one after the other. -/
def entriesBytes (es : List Entry) : Bytes :=
  (es.map Entry.raw).flatten

/-- The UTF-8 bytes of one Unicode scalar value (RFC 3629): one byte below
U+0080, two below U+0800, three below U+10000, four above. -/
def utf8EncodeChar (c : Nat) : Bytes :=
  if c < 0x80 then [c]
  else if c < 0x800 then [0xC0 + c / 0x40, 0x80 + c % 0x40]
  else if c < 0x10000 then [0xE0 + c / 0x1000, 0x80 + c / 0x40 % 0x40, 0x80 + c % 0x40]
  else [0xF0 + c / 0x40000, 0x80 + c / 0x1000 % 0x40, 0x80 + c / 0x40 % 0x40, 0x80 + c % 0x40]

/-- The UTF-8 bytes of a string, which is what a Go string of these
characters holds. -/
def utf8Bytes (s : String) : Bytes :=
  s.data.flatMap fun c => utf8EncodeChar c.toNat

/-- Modelled from the spec: the check that the payload of a string field is
valid UTF-8; the source leaves it to the protobuf runtime.  The well-formed
byte sequences of RFC 3629: no overlong form, no surrogate, nothing above
U+10FFFF. -/
def validUTF8 : Bytes → Bool
  | [] => true
  | b0 :: bs =>
    if b0 < 0x80 then validUTF8 bs
    else
      match bs with
      | [] => false
      | b1 :: bs1 =>
        if 0xC2 ≤ b0 ∧ b0 ≤ 0xDF then
          decide (0x80 ≤ b1 ∧ b1 ≤ 0xBF) && validUTF8 bs1
        else
          match bs1 with
          | [] => false
          | b2 :: bs2 =>
            if 0xE0 ≤ b0 ∧ b0 ≤ 0xEF then
              decide ((if b0 = 0xE0 then 0xA0 else 0x80) ≤ b1
                ∧ b1 ≤ (if b0 = 0xED then 0x9F else 0xBF)
                ∧ 0x80 ≤ b2 ∧ b2 ≤ 0xBF) && validUTF8 bs2
            else
              match bs2 with
              | [] => false
              | b3 :: bs3 =>
                if 0xF0 ≤ b0 ∧ b0 ≤ 0xF4 then
                  decide ((if b0 = 0xF0 then 0x90 else 0x80) ≤ b1
                    ∧ b1 ≤ (if b0 = 0xF4 then 0x8F else 0xBF)
                    ∧ 0x80 ≤ b2 ∧ b2 ≤ 0xBF ∧ 0x80 ≤ b3 ∧ b3 ≤ 0xBF) && validUTF8 bs3
                else false

/-- Modelled from the spec: the only decode failure of its error taxonomy. -/
inductive DecodeError where
  | MalformedEncoding
deriving DecidableEq, Repr

deriving instance DecidableEq for Except

/-- Modelled from the spec: "Encode to bytes"; the source leaves it to the
protobuf runtime.  The `message` field is tag 1, length-delimited, so its key
is the varint of `8 * 1 + 2`; it is left out when the string is empty; the
unknown-field bytes follow the known field. -/
def encode (x : DemoConfig) : Bytes :=
  (if x.Message = [] then []
   else appendVarint (8 * 1 + 2) ++ appendVarint x.Message.length ++ x.Message)
  ++ x.unknownFields

/-- The entry `encode` writes for a non-empty message: tag 1, wire type 2,
the byte count, the bytes. -/
def messageEntry (s : Bytes) : Entry :=
  { num := 1, wt := 2, val := s.length, payload := s,
    raw := appendVarint (8 * 1 + 2) ++ appendVarint s.length ++ s }

/-- Modelled from the spec: what reading one entry stores in the instance; the
source leaves it to the protobuf runtime.  The payload of the tag-1
length-delimited entry becomes the message, the bytes of any other entry are
appended to the unknown fields, "not rejected"; that includes an entry of tag
1 with another wire type, which has no payload to read as a string. -/
def storeEntry (x : DemoConfig) (e : Entry) : DemoConfig :=
  if e.isMessage then { x with Message := e.payload }
  else { x with unknownFields := x.unknownFields ++ e.raw }

/-- Modelled from the spec: the loop of "Decode from bytes", which works on
the instance it is given; the source leaves it to the protobuf runtime.  It
reads one entry per round and stores it; it stops with `MalformedEncoding`
at an entry that cannot be read and at a message entry whose payload is not
valid UTF-8, and the instance then holds what the rounds before stored.
Returns the error, if any, and the instance after the loop.  Every round
reads at least one byte, so `fuel` rounds are enough for `fuel` bytes; the
outer `none` is a loop stopped by `fuel` with bytes left. -/
def unmarshalLoop : Nat → Bytes → DemoConfig → Option (Option DecodeError × DemoConfig)
  | _, [], x => some (none, x)
  | 0, _ :: _, _ => none
  | fuel + 1, b0 :: bs, x =>
    match consumeEntry (b0 :: bs) with
    | none => some (some DecodeError.MalformedEncoding, x)
    | some (e, n) =>
      if e.isMessage && !validUTF8 e.payload then
        some (some DecodeError.MalformedEncoding, x)
      else unmarshalLoop fuel ((b0 :: bs).drop n) (storeEntry x e)

/-- Modelled from the spec: "Decode from bytes" into a fresh instance (the
zero value: empty message, no unknown fields); the source leaves it to the
protobuf runtime.  The loop is given one round per byte (`unmarshalLoop_fuel`
shows it never stops for lack of them, so the last case is never taken). -/
def decode (b : Bytes) : Except DecodeError DemoConfig :=
  match unmarshalLoop b.length b DemoConfig.zero with
  | some (none, x) => Except.ok x
  | some (some err, _) => Except.error err
  | none => Except.error DecodeError.MalformedEncoding

/-- Modelled from the spec: decode into an existing instance, as the runtime
does it (`proto.Unmarshal`); the source leaves it to the protobuf runtime.
The runtime calls the `Reset` of the source on the target and runs the loop on
the target itself, so after a failure the target holds what the loop stored
before it stopped.  The spec asks for a fresh value that is swapped in on
success "or document any relaxation of this guarantee"; the runtime is the
relaxation.  Returns the result of the call and the target after it. -/
def decodeInto (unsafeEnabled : Bool) (target : DemoConfig) (b : Bytes) :
    Except DecodeError Unit × DemoConfig :=
  match unmarshalLoop b.length b (DemoConfig.Reset unsafeEnabled target) with
  | some (none, x) => (Except.ok (), x)
  | some (some err, x) => (Except.error err, x)
  | none => (Except.error DecodeError.MalformedEncoding, DemoConfig.Reset unsafeEnabled target)

/-! ## The embedded descriptor, read as a `FileDescriptorProto` -/

/-- All entries of a byte sequence, in order: `none` when an entry cannot be
read (a varint, a payload or a group runs past the end, or a wire type has no
value to read).  One round per entry; every entry has at least one byte, so
`fuel` rounds are enough for `fuel` bytes. -/
def walkEntries : Nat → Bytes → Option (List Entry)
  | _, [] => some []
  | 0, _ :: _ => none
  | fuel + 1, b0 :: bs =>
    match consumeEntry (b0 :: bs) with
    | none => none
    | some (e, n) =>
      match walkEntries fuel ((b0 :: bs).drop n) with
      | none => none
      | some es => some (e :: es)

/-- The entries of a byte sequence. -/
def walk (b : Bytes) : Option (List Entry) :=
  walkEntries b.length b

/-- The payloads of the length-delimited entries with tag `num`, in order. -/
def bytesFields (num : Nat) (es : List Entry) : List Bytes :=
  (es.filter (fun e => e.num = num && e.wt = 2)).map Entry.payload

/-- The values of the varint entries with tag `num`, in order. -/
def varintFields (num : Nat) (es : List Entry) : List Nat :=
  (es.filter (fun e => e.num = num && e.wt = 0)).map Entry.val

/-- Apply a reader to every payload; `none` when one of them fails. -/
def readAll {α : Type} (f : Bytes → Option α) : List Bytes → Option (List α)
  | [] => some []
  | b :: bs =>
    match f b with
    | none => none
    | some a =>
      match readAll f bs with
      | none => none
      | some as => some (a :: as)

/-- A `google.protobuf.FieldDescriptorProto` as far as the descriptor uses
it; the tags are those of `descriptor.proto`: `name` = 1, `number` = 3,
`label` = 4, `type` = 5, `json_name` = 10.  Each list holds every occurrence
of the field. -/
structure FieldDescriptorProto where
  name : List Bytes
  number : List Nat
  label : List Nat
  type : List Nat
  jsonName : List Bytes
deriving DecidableEq, Repr

/-- A `google.protobuf.DescriptorProto`: `name` = 1, `field` = 2. -/
structure DescriptorProto where
  name : List Bytes
  field : List FieldDescriptorProto
deriving DecidableEq, Repr

/-- A `google.protobuf.FileOptions`: `go_package` = 11. -/
structure FileOptions where
  goPackage : List Bytes
deriving DecidableEq, Repr

/-- A `google.protobuf.FileDescriptorProto`: `name` = 1, `package` = 2,
`message_type` = 4, `options` = 8, and `syn` for its field `syntax` = 12.
`entries` counts the top-level records and `other` those with a tag that
is none of these five. -/
structure FileDescriptorProto where
  name : List Bytes
  package : List Bytes
  messageType : List DescriptorProto
  options : List FileOptions
  syn : List Bytes
  entries : Nat
  other : Nat
deriving DecidableEq, Repr

/-- Read the bytes of a `FieldDescriptorProto`. -/
def readField (b : Bytes) : Option FieldDescriptorProto :=
  match walk b with
  | none => none
  | some es =>
    some { name := bytesFields 1 es, number := varintFields 3 es,
           label := varintFields 4 es, type := varintFields 5 es,
           jsonName := bytesFields 10 es }

/-- Read the bytes of a `DescriptorProto`, fields included. -/
def readMessage (b : Bytes) : Option DescriptorProto :=
  match walk b with
  | none => none
  | some es =>
    match readAll readField (bytesFields 2 es) with
    | none => none
    | some fs => some { name := bytesFields 1 es, field := fs }

/-- Read the bytes of a `FileOptions`. -/
def readOptions (b : Bytes) : Option FileOptions :=
  match walk b with
  | none => none
  | some es => some { goPackage := bytesFields 11 es }

/-- Read the bytes of a `FileDescriptorProto`, nested messages included. -/
def readFile (b : Bytes) : Option FileDescriptorProto :=
  match walk b with
  | none => none
  | some es =>
    match readAll readMessage (bytesFields 4 es), readAll readOptions (bytesFields 8 es) with
    | some ms, some os =>
      some { name := bytesFields 1 es, package := bytesFields 2 es, messageType := ms,
             options := os, syn := bytesFields 12 es, entries := es.length,
             other := (es.filter (fun e => !(e.num = 1 || e.num = 2 || e.num = 4
                        || e.num = 8 || e.num = 12))).length }
    | _, _ => none

/-- The value of the key `protobuf` in the struct tag of the field
`Message`. -/
def DemoConfig.MessageTag : String :=
  "bytes,1,opt,name=message,proto3"

/-- Split at every comma. -/
def splitComma : List Char → List (List Char)
  | [] => [[]]
  | c :: cs =>
    match splitComma cs with
    | [] => [[c]]
    | w :: ws => if c = ',' then [] :: w :: ws else (c :: w) :: ws

/-- A run of decimal digits as a number; `none` when a character is not a
digit. -/
def readDecimal (cs : List Char) : Option Nat :=
  cs.foldl (fun acc c =>
    match acc with
    | none => none
    | some n => if c.isDigit then some (10 * n + (c.toNat - 48)) else none) (some 0)

/-- A `protobuf` struct tag, part by part: the wire kind, the field number,
the label, the name after `name=`, and the last part (`syn`, the syntax). -/
structure ProtobufTag where
  wire : List Char
  number : Nat
  label : List Char
  name : List Char
  syn : List Char
deriving DecidableEq, Repr

/-- Read a struct tag of the five parts `wire,number,label,name=...,syntax`. -/
def readTag (s : String) : Option ProtobufTag :=
  match splitComma s.data with
  | [w, n, l, 'n' :: 'a' :: 'm' :: 'e' :: '=' :: nm, sy] =>
    match readDecimal n with
    | none => none
    | some k => some { wire := w, number := k, label := l, name := nm, syn := sy }
  | _ => none

/-- Whether a struct tag and a field of the descriptor say the same: number
and name are equal, the label `opt` stands for `LABEL_OPTIONAL` = 1, the wire
kind `bytes` is the one the generator writes for `TYPE_STRING` = 9, and the
last part is the syntax of the file. -/
def tagAgrees (t : ProtobufTag) (f : FieldDescriptorProto) (file : FileDescriptorProto) : Bool :=
  f.number = [t.number]
  && f.name = [utf8Bytes (String.mk t.name)]
  && (t.label = "opt".data && f.label = [1])
  && (t.wire = "bytes".data && f.type = [9])
  && file.syn = [utf8Bytes (String.mk t.syn)]

/-- A runtime to run the package on: `Build` returns the file handle 0, leaves
the message infos as they are and records the raw descriptor it was given in
the registry; `CompressGZIP` puts the two gzip magic bytes in front of its
input. -/
def sampleRuntime (unsafeEnabled : Bool) : Runtime Nat (Option (List (Option Slot))) (List Bytes) :=
  { UnsafeEnabled := unsafeEnabled
    CompressGZIP := fun b => 0x1f :: 0x8b :: b
    zeroMessageInfo := none
    setExporter := fun _ f => some [f 0, f 1, f 2, f 3]
    PkgPath := "proto"
    Build := fun tb w =>
      some { File := some 0, MessageInfos := tb.MessageInfos,
             world := w ++ [tb.File.RawDescriptor.getD []] } }

/-! ## Theorems: accessors -/

/-- C3: `GetMessage` returns the `Message` field of a non-nil receiver, the
empty string for a nil receiver, and leaves the receiver's pointee as it
was. -/
theorem GetMessage_spec :
    (∀ v : DemoConfig, (DemoConfig.GetMessage (some v)).1 = v.Message)
    ∧ (DemoConfig.GetMessage none).1 = []
    ∧ (∀ x : Option DemoConfig, (DemoConfig.GetMessage x).2 = x) := by
  refine ⟨fun v => rfl, rfl, fun x => ?_⟩
  cases x <;> rfl

/-- C4: after `Reset`, whatever the instance held, its `Message` is empty (so
`GetMessage` returns the empty string), it has no unknown fields and its size
cache is zero, as in a freshly constructed `DemoConfig{}`; it differs from
the zero value at most in the message-info pointer of its `state`, which
`Reset` sets when `UnsafeEnabled`; and `Reset` twice is `Reset` once. -/
theorem Reset_spec (unsafeEnabled : Bool) (x : DemoConfig) :
    (DemoConfig.Reset unsafeEnabled x).Message = DemoConfig.zero.Message
    ∧ (DemoConfig.Reset unsafeEnabled x).Message = []
    ∧ (DemoConfig.GetMessage (some (DemoConfig.Reset unsafeEnabled x))).1 = []
    ∧ (DemoConfig.Reset unsafeEnabled x).unknownFields = []
    ∧ (DemoConfig.Reset unsafeEnabled x).sizeCache = 0
    ∧ { DemoConfig.Reset unsafeEnabled x with state := none } = DemoConfig.zero
    ∧ (DemoConfig.Reset unsafeEnabled x).state = (if unsafeEnabled then some 0 else none)
    ∧ DemoConfig.Reset unsafeEnabled (DemoConfig.Reset unsafeEnabled x)
        = DemoConfig.Reset unsafeEnabled x := by
  cases unsafeEnabled <;>
    simp [DemoConfig.Reset, DemoConfig.zero, DemoConfig.GetMessage]

/-! ## Theorems: the embedded descriptor -/

/-- C5: the raw descriptor has 202 bytes; walked as records it is used up to
the last byte, no varint or length prefix running past the end, at the top
level and inside every nested message; it declares the package
`greymatter_io.gm_proxy.source.filters.network`, the syntax `proto3` and one
message, `DemoConfig`, with one field: name `message`, number 1, label 1
(optional), type 9 (string); the struct tag `bytes,1,opt,name=message,proto3`
says the same, and `init` passes these bytes to the runtime with
`NumMessages` = 1, the number of messages declared. -/
theorem rawDesc_schema :
    file_source_filters_network_proto_demo_proto_rawDesc.length = 202
    ∧ (walk file_source_filters_network_proto_demo_proto_rawDesc).map entriesBytes
        = some file_source_filters_network_proto_demo_proto_rawDesc
    ∧ readFile file_source_filters_network_proto_demo_proto_rawDesc
        = some
          { name := [utf8Bytes "source/filters/network/proto/demo.proto"]
            package := [utf8Bytes "greymatter_io.gm_proxy.source.filters.network"]
            messageType :=
              [{ name := [utf8Bytes "DemoConfig"]
                 field := [{ name := [utf8Bytes "message"], number := [1], label := [1],
                             type := [9], jsonName := [utf8Bytes "message"] }] }]
            options :=
              [{ goPackage :=
                   [utf8Bytes "github.com/greymatter-io/gm-proxy/source/filters/network/proto"] }]
            syn := [utf8Bytes "proto3"]
            entries := 5
            other := 0 }
    ∧ readTag DemoConfig.MessageTag
        = some { wire := "bytes".data, number := 1, label := "opt".data,
                 name := "message".data, syn := "proto3".data }
    ∧ ((readFile file_source_filters_network_proto_demo_proto_rawDesc).bind fun file =>
        (readTag DemoConfig.MessageTag).map fun t =>
          file.messageType.map fun m => m.field.map fun f => tagAgrees t f file)
        = some [[true]]
    ∧ (∀ (FD MI W : Type) (rt : Runtime FD MI W) (s : Pkg FD MI W) (ms : List MI),
        ((readFile file_source_filters_network_proto_demo_proto_rawDesc).map fun file =>
          (file.messageType.length : Int))
          = some (initTypeBuilder rt s ms).File.NumMessages)
    ∧ (∀ (FD MI W : Type) (rt : Runtime FD MI W) (w : W) (ms : List MI),
        (initTypeBuilder rt (Pkg.initial rt w) ms).File.RawDescriptor
          = some file_source_filters_network_proto_demo_proto_rawDesc) := by
  refine ⟨by decide, by decide, by decide, by decide, by decide, ?_, ?_⟩
  · intro FD MI W rt s ms
    have h : ((readFile file_source_filters_network_proto_demo_proto_rawDesc).map fun file =>
        (file.messageType.length : Int)) = some 1 := by decide
    rw [h]
    rfl
  · intro FD MI W rt w ms
    rfl

/-! ## Theorems: package state -/

theorem init_of_File_isSome {FD MI W : Type} (rt : Runtime FD MI W) (s : Pkg FD MI W)
    (h : s.File.isSome = true) :
    file_source_filters_network_proto_demo_proto_init rt s = some s := by
  simp [file_source_filters_network_proto_demo_proto_init, h]

theorem initTimes_of_File_isSome {FD MI W : Type} (rt : Runtime FD MI W) (s : Pkg FD MI W)
    (h : s.File.isSome = true) (n : Nat) : initTimes rt n s = some s := by
  induction n with
  | zero => rfl
  | succ n ih => simp [initTimes, init_of_File_isSome rt s h, ih]

/-- What `init` does when the file descriptor is not set yet: it is the
build path, and the state after it is the state before it with `File`,
`rawDesc`, `goTypes`, `depIdxs`, `msgTypes`, the runtime's state and the
build counter replaced. -/
theorem init_of_File_none {FD MI W : Type} (rt : Runtime FD MI W) (s s1 : Pkg FD MI W)
    (hF : s.File = none)
    (h : file_source_filters_network_proto_demo_proto_init rt s = some s1) :
    ∃ (f : Option FD) (ms : List MI) (w : W),
      s1 = { s with File := f, rawDesc := none, goTypes := none, depIdxs := none,
                    msgTypes := ms, world := w, builds := s.builds + 1 }
      ∧ ∀ (d : Bytes) (o : Bool) (g : List Bytes),
          file_source_filters_network_proto_demo_proto_init rt
              { s with rawDescData := d, rawDescOnce := o, gzipInputs := g }
            = some { s with File := f, rawDesc := none, goTypes := none, depIdxs := none,
                            msgTypes := ms, world := w, builds := s.builds + 1,
                            rawDescData := d, rawDescOnce := o, gzipInputs := g } := by
  unfold file_source_filters_network_proto_demo_proto_init at h
  simp only [hF, Option.isSome_none, Bool.false_eq_true, if_false] at h
  split at h
  · exact absurd h (by simp)
  · rename_i ms hms
    split at h
    · exact absurd h (by simp)
    · rename_i out hout
      simp only [Option.some.injEq] at h
      refine ⟨out.File, out.MessageInfos, out.world, h.symm, fun d o g => ?_⟩
      unfold file_source_filters_network_proto_demo_proto_init
      simp only [hF, Option.isSome_none, Bool.false_eq_true, if_false]
      simp only [initTypeBuilder] at hout ⊢
      rw [hms]
      simp only [hout]

/-- C6: once a call of `init` has succeeded and left the file descriptor set,
a further call returns without building or registering anything and leaves
every package variable, the runtime's state and the call counters as they
are; so `n ≥ 1` calls in a row end in the state one call ends in. -/
theorem init_idempotent {FD MI W : Type} (rt : Runtime FD MI W) (s0 s1 : Pkg FD MI W) (n : Nat)
    (h1 : file_source_filters_network_proto_demo_proto_init rt s0 = some s1)
    (hF : s1.File.isSome = true) (hn : 1 ≤ n) :
    file_source_filters_network_proto_demo_proto_init rt s1 = some s1
    ∧ initTimes rt n s1 = some s1
    ∧ initTimes rt n s0 = file_source_filters_network_proto_demo_proto_init rt s0 := by
  refine ⟨init_of_File_isSome rt s1 hF, initTimes_of_File_isSome rt s1 hF n, ?_⟩
  obtain ⟨m, rfl⟩ : ∃ m, n = m + 1 := ⟨n - 1, by omega⟩
  simp [initTimes, h1, initTimes_of_File_isSome rt s1 hF m]

/-- The witness of C6: the initial package state under the sample runtime,
three calls. -/
theorem init_idempotent_witness :
    initTimes (sampleRuntime true) 3 (Pkg.initial (sampleRuntime true) [])
      = file_source_filters_network_proto_demo_proto_init (sampleRuntime true)
          (Pkg.initial (sampleRuntime true) []) :=
  (init_idempotent (sampleRuntime true) (Pkg.initial (sampleRuntime true) [])
    { Pkg.initial (sampleRuntime true) [] with
      File := some 0, rawDesc := none, goTypes := none, depIdxs := none,
      world := [file_source_filters_network_proto_demo_proto_rawDesc], builds := 1 }
    3 rfl rfl (by decide)).2.2

/-- Once the once of `rawDescGZIP` has fired, a call of `rawDescGZIP` or
`Descriptor` returns `rawDescData` and changes nothing. -/
theorem run_of_rawDescOnce {FD MI W : Type} (rt : Runtime FD MI W) (cs : List Call)
    (s : Pkg FD MI W) (hc : ∀ c ∈ cs, c ≠ Call.init) (hOnce : s.rawDescOnce = true) :
    run rt cs s
      = some (cs.map (fun c =>
          if c = Call.Descriptor then Ret.descriptor s.rawDescData [0]
          else Ret.bytes s.rawDescData), s) := by
  induction cs with
  | nil => rfl
  | cons c cs ih =>
    have ih1 := ih (fun c hc1 => hc c (List.mem_cons_of_mem _ hc1))
    have hc0 : c ≠ Call.init := hc c (List.mem_cons_self _ _)
    cases c with
    | init => exact absurd rfl hc0
    | rawDescGZIP =>
      simp [run, step, file_source_filters_network_proto_demo_proto_rawDescGZIP, hOnce, ih1]
    | Descriptor =>
      simp [run, step, DemoConfig.Descriptor,
        file_source_filters_network_proto_demo_proto_rawDescGZIP, hOnce, ih1]

/-- C9, as amended: over any non-empty sequence of calls of `rawDescGZIP` and
`Descriptor`, started where the once of `rawDescGZIP` has not fired and
`rawDescData` is the uncompressed descriptor, `CompressGZIP` is applied
exactly once, to the uncompressed descriptor, and every call returns that one
result, `Descriptor` pairing it with the index path `[0]`; the guard is the
once `rawDescOnce`, which the calls leave fired. -/
theorem rawDescGZIP_once {FD MI W : Type} (rt : Runtime FD MI W) (cs : List Call)
    (s : Pkg FD MI W) (hcs : cs ≠ []) (hc : ∀ c ∈ cs, c ≠ Call.init)
    (hOnce : s.rawDescOnce = false)
    (hData : s.rawDescData = file_source_filters_network_proto_demo_proto_rawDesc)
    (hLog : s.gzipInputs = []) :
    run rt cs s
      = some (cs.map (fun c =>
          if c = Call.Descriptor then
            Ret.descriptor (rt.CompressGZIP file_source_filters_network_proto_demo_proto_rawDesc) [0]
          else Ret.bytes (rt.CompressGZIP file_source_filters_network_proto_demo_proto_rawDesc)),
          { s with
            rawDescData := rt.CompressGZIP file_source_filters_network_proto_demo_proto_rawDesc
            gzipInputs := [file_source_filters_network_proto_demo_proto_rawDesc]
            rawDescOnce := true }) := by
  cases cs with
  | nil => exact absurd rfl hcs
  | cons c cs =>
    have hc0 : c ≠ Call.init := hc c (List.mem_cons_self _ _)
    have hrest := run_of_rawDescOnce rt cs
      { s with
        rawDescData := rt.CompressGZIP file_source_filters_network_proto_demo_proto_rawDesc
        gzipInputs := [file_source_filters_network_proto_demo_proto_rawDesc]
        rawDescOnce := true }
      (fun c hc1 => hc c (List.mem_cons_of_mem _ hc1)) rfl
    cases c with
    | init => exact absurd rfl hc0
    | rawDescGZIP =>
      simp [run, step, file_source_filters_network_proto_demo_proto_rawDescGZIP, hOnce, hData,
        hLog, hrest]
    | Descriptor =>
      simp [run, step, DemoConfig.Descriptor,
        file_source_filters_network_proto_demo_proto_rawDescGZIP, hOnce, hData, hLog, hrest]

/-- The witness of C9: `Descriptor`, `rawDescGZIP`, `Descriptor` on the initial
package state under the sample runtime. -/
theorem rawDescGZIP_once_witness :
    run (sampleRuntime true) [Call.Descriptor, Call.rawDescGZIP, Call.Descriptor]
        (Pkg.initial (sampleRuntime true) [])
      = some ([Ret.descriptor (0x1f :: 0x8b :: file_source_filters_network_proto_demo_proto_rawDesc) [0],
               Ret.bytes (0x1f :: 0x8b :: file_source_filters_network_proto_demo_proto_rawDesc),
               Ret.descriptor (0x1f :: 0x8b :: file_source_filters_network_proto_demo_proto_rawDesc) [0]],
          { Pkg.initial (sampleRuntime true) [] with
            rawDescData := 0x1f :: 0x8b :: file_source_filters_network_proto_demo_proto_rawDesc
            gzipInputs := [file_source_filters_network_proto_demo_proto_rawDesc]
            rawDescOnce := true }) :=
  rawDescGZIP_once (sampleRuntime true) [Call.Descriptor, Call.rawDescGZIP, Call.Descriptor]
    (Pkg.initial (sampleRuntime true) []) (by decide) (by decide) rfl rfl rfl

/-- C9 as stated fails: the guard of `rawDescGZIP` is not the guard of schema
initialisation.  After `init` has run and set the file descriptor, which is
what makes a further `init` return at once, the once of `rawDescGZIP` has not
fired and the first `rawDescGZIP` still compresses; and after `rawDescGZIP`
has fired its once, `init` still builds. -/
theorem rawDescGZIP_guard_is_not_init_guard :
    ((file_source_filters_network_proto_demo_proto_init (sampleRuntime true)
        (Pkg.initial (sampleRuntime true) [])).map fun s =>
      (s.File.isSome, s.rawDescOnce, s.builds,
        (file_source_filters_network_proto_demo_proto_rawDescGZIP (sampleRuntime true) s).2.gzipInputs.length))
      = some (true, false, 1, 1)
    ∧ ((file_source_filters_network_proto_demo_proto_init (sampleRuntime true)
          (file_source_filters_network_proto_demo_proto_rawDescGZIP (sampleRuntime true)
            (Pkg.initial (sampleRuntime true) [])).2).map fun s =>
        (s.rawDescOnce, s.builds))
      = some (true, 1)
    ∧ (file_source_filters_network_proto_demo_proto_rawDescGZIP (sampleRuntime true)
          (Pkg.initial (sampleRuntime true) [])).2.File.isSome = false := by
  refine ⟨rfl, rfl, rfl⟩

/-- C10: `init` on a package that is not initialised yet sets `rawDesc`,
`goTypes` and `depIdxs` to nil and leaves `rawDescData`, the once of
`rawDescGZIP` and the record of compressions as they are; so where
`rawDescData` is still the 202-byte descriptor, the first `Descriptor` after
`init` returns the compression of those 202 bytes with the path `[0]`, and
`init` after `Descriptor` ends in the same state as `Descriptor` after
`init`, with the same result of `Descriptor`. -/
theorem init_keeps_rawDescData {FD MI W : Type} (rt : Runtime FD MI W) (s s1 : Pkg FD MI W)
    (hF : s.File = none)
    (hOnce : s.rawDescOnce = false)
    (hData : s.rawDescData = file_source_filters_network_proto_demo_proto_rawDesc)
    (h : file_source_filters_network_proto_demo_proto_init rt s = some s1) :
    s1.rawDesc = none ∧ s1.goTypes = none ∧ s1.depIdxs = none
    ∧ s1.rawDescData = file_source_filters_network_proto_demo_proto_rawDesc
    ∧ s1.rawDescData.length = 202
    ∧ s1.rawDescOnce = false
    ∧ s1.gzipInputs = s.gzipInputs
    ∧ (DemoConfig.Descriptor rt s1).1
        = (rt.CompressGZIP file_source_filters_network_proto_demo_proto_rawDesc, [0])
    ∧ (DemoConfig.Descriptor rt s1).2.gzipInputs
        = s.gzipInputs ++ [file_source_filters_network_proto_demo_proto_rawDesc]
    ∧ (DemoConfig.Descriptor rt s).1 = (DemoConfig.Descriptor rt s1).1
    ∧ file_source_filters_network_proto_demo_proto_init rt (DemoConfig.Descriptor rt s).2
        = some (DemoConfig.Descriptor rt s1).2 := by
  obtain ⟨f, ms, w, rfl, hcomm⟩ := init_of_File_none rt s s1 hF h
  have hlen : file_source_filters_network_proto_demo_proto_rawDesc.length = 202 := by decide
  refine ⟨rfl, rfl, rfl, hData, by simp [hData, hlen], hOnce, rfl, ?_, ?_, ?_, ?_⟩
  · simp [DemoConfig.Descriptor, file_source_filters_network_proto_demo_proto_rawDescGZIP,
      hOnce, hData]
  · simp [DemoConfig.Descriptor, file_source_filters_network_proto_demo_proto_rawDescGZIP,
      hOnce, hData]
  · simp [DemoConfig.Descriptor, file_source_filters_network_proto_demo_proto_rawDescGZIP,
      hOnce, hData]
  · simp only [DemoConfig.Descriptor, file_source_filters_network_proto_demo_proto_rawDescGZIP,
      hOnce, Bool.false_eq_true, if_false]
    exact hcomm _ _ _

/-- The witness of C10: the initial package state under the sample runtime. -/
theorem init_keeps_rawDescData_witness :
    (DemoConfig.Descriptor (sampleRuntime true)
        { Pkg.initial (sampleRuntime true) [] with
          File := some 0, rawDesc := none, goTypes := none, depIdxs := none,
          world := [file_source_filters_network_proto_demo_proto_rawDesc], builds := 1 }).1
      = (0x1f :: 0x8b :: file_source_filters_network_proto_demo_proto_rawDesc, [0]) :=
  (init_keeps_rawDescData (sampleRuntime true) (Pkg.initial (sampleRuntime true) [])
    { Pkg.initial (sampleRuntime true) [] with
      File := some 0, rawDesc := none, goTypes := none, depIdxs := none,
      world := [file_source_filters_network_proto_demo_proto_rawDesc], builds := 1 }
    rfl rfl rfl rfl).2.2.2.2.2.2.2.1

/-! ## Theorems: varints and entries -/

theorem appendVarint_small (v : Nat) (h : v < 128) : appendVarint v = [v] := by
  rw [appendVarint]; simp [h]

theorem appendVarint_large (v : Nat) (h : ¬ v < 128) :
    appendVarint v = (v % 128 + 128) :: appendVarint (v / 128) := by
  rw [appendVarint]; simp [h]

theorem appendVarint_ne_nil (v : Nat) : appendVarint v ≠ [] := by
  by_cases h : v < 128
  · simp [appendVarint_small v h]
  · simp [appendVarint_large v h]

theorem appendVarint_isBytes (v : Nat) : isBytes (appendVarint v) := by
  induction v using Nat.strong_induction_on with
  | _ v ih =>
    by_cases h : v < 128
    · rw [appendVarint_small v h]
      intro b hb
      simp at hb
      omega
    · rw [appendVarint_large v h]
      intro b hb
      rcases List.mem_cons.mp hb with rfl | hb
      · omega
      · exact ih (v / 128) (by omega) b hb

/-- Reading back the varint of a number gives the number and uses exactly the
bytes written, whatever follows them. -/
theorem consumeVarint_appendVarint (v : Nat) (rest : Bytes) :
    consumeVarint (appendVarint v ++ rest) = some (v, (appendVarint v).length) := by
  induction v using Nat.strong_induction_on with
  | _ v ih =>
    by_cases h : v < 128
    · simp [appendVarint_small v h, consumeVarint, h]
    · rw [appendVarint_large v h]
      have hge : ¬ (v % 128 + 128 < 128) := by omega
      have ih1 := ih (v / 128) (by omega)
      rw [List.cons_append, consumeVarint, if_neg hge, ih1]
      simp only [List.length_cons, Option.some.injEq, Prod.mk.injEq, and_true]
      omega

theorem consumeVarint_bounds (b : Bytes) (v n : Nat) (h : consumeVarint b = some (v, n)) :
    1 ≤ n ∧ n ≤ b.length := by
  induction b generalizing v n with
  | nil => simp [consumeVarint] at h
  | cons b0 bs ih =>
    simp only [consumeVarint] at h
    split at h
    · simp only [Option.some.injEq, Prod.mk.injEq] at h
      simp [← h.2]
    · split at h
      · exact absurd h (by simp)
      · rename_i v1 n1 h1
        simp only [Option.some.injEq, Prod.mk.injEq] at h
        have := ih v1 n1 h1
        simp only [List.length_cons]
        omega

/-- A varint is read from its own bytes: what follows does not matter. -/
theorem consumeVarint_append (a rest : Bytes) (v n : Nat) (h : consumeVarint a = some (v, n)) :
    consumeVarint (a ++ rest) = some (v, n) := by
  induction a generalizing v n with
  | nil => simp [consumeVarint] at h
  | cons b0 bs ih =>
    simp only [consumeVarint, List.cons_append] at h ⊢
    split at h
    · rename_i hlt
      simp [hlt, h]
    · rename_i hlt
      split at h
      · exact absurd h (by simp)
      · rename_i v1 n1 h1
        simp [hlt, ih v1 n1 h1, h]

/-- A varint is read from its own bytes: the bytes it used are enough. -/
theorem consumeVarint_take (b : Bytes) (v n k : Nat) (h : consumeVarint b = some (v, n))
    (hk : n ≤ k) : consumeVarint (b.take k) = some (v, n) := by
  induction b generalizing v n k with
  | nil => simp [consumeVarint] at h
  | cons b0 bs ih =>
    obtain ⟨k1, rfl⟩ : ∃ k1, k = k1 + 1 :=
      ⟨k - 1, by have := (consumeVarint_bounds _ _ _ h).1; omega⟩
    simp only [consumeVarint, List.take_succ_cons] at h ⊢
    split at h
    · rename_i hlt
      simp [hlt, h]
    · rename_i hlt
      split at h
      · exact absurd h (by simp)
      · rename_i v1 n1 h1
        simp only [Option.some.injEq, Prod.mk.injEq] at h
        simp [hlt, ih v1 n1 k1 h1 (by omega), h]

/-- The four ways `consumeScalar` succeeds, one per wire type. -/
theorem consumeScalar_eq_some (wt : Nat) (b : Bytes) (v : Nat) (p : Bytes) (m : Nat) :
    consumeScalar wt b = some (v, p, m) ↔
      (wt = 0 ∧ consumeVarint b = some (v, m) ∧ p = [])
      ∨ (wt = 1 ∧ 8 ≤ b.length ∧ v = 0 ∧ p = b.take 8 ∧ m = 8)
      ∨ (wt = 2 ∧ ∃ n, consumeVarint b = some (v, n) ∧ v ≤ b.length - n
          ∧ p = (b.drop n).take v ∧ m = n + v)
      ∨ (wt = 5 ∧ 4 ≤ b.length ∧ v = 0 ∧ p = b.take 4 ∧ m = 4) := by
  unfold consumeScalar
  by_cases h0 : wt = 0
  · subst h0
    cases hv : consumeVarint b with
    | none => simp
    | some r =>
      obtain ⟨v1, n1⟩ := r
      simp
      aesop
  by_cases h1 : wt = 1
  · subst h1
    by_cases hl : b.length < 8
    · simp [hl]
    · simp [hl]
      constructor
      · rintro ⟨rfl, rfl, rfl⟩
        exact ⟨by omega, rfl, rfl, rfl⟩
      · rintro ⟨_, rfl, rfl, rfl⟩
        exact ⟨rfl, rfl, rfl⟩
  by_cases h2 : wt = 2
  · subst h2
    cases hv : consumeVarint b with
    | none => simp
    | some r =>
      obtain ⟨len, n1⟩ := r
      by_cases hl : b.length - n1 < len
      · simp [hl]
        intro h3 h4
        omega
      · simp [hl]
        constructor
        · rintro ⟨rfl, rfl, rfl⟩
          exact ⟨n1, ⟨rfl, rfl⟩, by omega, rfl, rfl⟩
        · rintro ⟨n, ⟨rfl, rfl⟩, _, rfl, rfl⟩
          exact ⟨rfl, rfl, rfl⟩
  by_cases h5 : wt = 5
  · subst h5
    by_cases hl : b.length < 4
    · simp [hl]
    · simp [hl]
      constructor
      · rintro ⟨rfl, rfl, rfl⟩
        exact ⟨by omega, rfl, rfl, rfl⟩
      · rintro ⟨_, rfl, rfl, rfl⟩
        exact ⟨rfl, rfl, rfl⟩
  · simp [h0, h1, h2, h5]

theorem consumeScalar_bounds (wt : Nat) (b : Bytes) (v : Nat) (p : Bytes) (m : Nat)
    (h : consumeScalar wt b = some (v, p, m)) : m ≤ b.length := by
  rcases (consumeScalar_eq_some wt b v p m).mp h with
    ⟨_, hv, _⟩ | ⟨_, hl, _, _, rfl⟩ | ⟨_, n, hv, hle, _, rfl⟩ | ⟨_, hl, _, _, rfl⟩
  · exact (consumeVarint_bounds _ _ _ hv).2
  · exact hl
  · have := (consumeVarint_bounds _ _ _ hv).2
    omega
  · exact hl

/-- A value that is not a group is read from its own bytes: what follows does
not matter. -/
theorem consumeScalar_append (wt : Nat) (a rest : Bytes) (v : Nat) (p : Bytes) (m : Nat)
    (h : consumeScalar wt a = some (v, p, m)) :
    consumeScalar wt (a ++ rest) = some (v, p, m) := by
  rw [consumeScalar_eq_some] at h ⊢
  rcases h with ⟨hw, hv, hp⟩ | ⟨hw, hl, hv, hp, hm⟩ | ⟨hw, n, hv, hle, hp, hm⟩ | ⟨hw, hl, hv, hp, hm⟩
  · exact Or.inl ⟨hw, consumeVarint_append a rest v m hv, hp⟩
  · refine Or.inr (Or.inl ⟨hw, by simp; omega, hv, ?_, hm⟩)
    rw [List.take_append_of_le_length hl]
    exact hp
  · have hb := (consumeVarint_bounds _ _ _ hv).2
    refine Or.inr (Or.inr (Or.inl ⟨hw, n, consumeVarint_append a rest v n hv, by simp; omega, ?_, hm⟩))
    rw [List.drop_append_of_le_length hb, List.take_append_of_le_length (by simp; omega)]
    exact hp
  · refine Or.inr (Or.inr (Or.inr ⟨hw, by simp; omega, hv, ?_, hm⟩))
    rw [List.take_append_of_le_length hl]
    exact hp

/-- A value that is not a group is read from its own bytes: the bytes it used
are enough. -/
theorem consumeScalar_take (wt : Nat) (b : Bytes) (v : Nat) (p : Bytes) (m k : Nat)
    (h : consumeScalar wt b = some (v, p, m)) (hk : m ≤ k) :
    consumeScalar wt (b.take k) = some (v, p, m) := by
  rw [consumeScalar_eq_some] at h ⊢
  rcases h with ⟨hw, hv, hp⟩ | ⟨hw, hl, hv, hp, hm⟩ | ⟨hw, n, hv, hle, hp, hm⟩ | ⟨hw, hl, hv, hp, hm⟩
  · exact Or.inl ⟨hw, consumeVarint_take b v m k hv hk, hp⟩
  · refine Or.inr (Or.inl ⟨hw, by simp; omega, hv, ?_, hm⟩)
    rw [List.take_take, Nat.min_eq_left (by omega)]
    exact hp
  · have hb := (consumeVarint_bounds _ _ _ hv).2
    refine Or.inr (Or.inr (Or.inl
      ⟨hw, n, consumeVarint_take b v n k hv (by omega), by simp; omega, ?_, hm⟩))
    rw [List.drop_take, List.take_take, Nat.min_eq_left (by omega)]
    exact hp
  · refine Or.inr (Or.inr (Or.inr ⟨hw, by simp; omega, hv, ?_, hm⟩))
    rw [List.take_take, Nat.min_eq_left (by omega)]
    exact hp

theorem take_eq_of_take_eq {b c : Bytes} {k m : Nat} (hk : k ≤ m)
    (h : c.take m = b.take m) : c.take k = b.take k := by
  have h1 : (c.take m).take k = (b.take m).take k := by rw [h]
  rwa [List.take_take, List.take_take, Nat.min_eq_left hk] at h1

theorem take_drop_eq_of_take_eq {b c : Bytes} {a k m : Nat} (hk : a + k ≤ m)
    (h : c.take m = b.take m) : (c.drop a).take k = (b.drop a).take k := by
  have h1 := take_eq_of_take_eq hk h
  have h2 : (c.take (a + k)).drop a = (b.take (a + k)).drop a := by rw [h1]
  rwa [List.drop_take, List.drop_take, Nat.add_sub_cancel_left] at h2

/-- A varint is read from its own bytes: any byte sequence that starts with
them gives the same. -/
theorem consumeVarint_of_take_eq (b c : Bytes) (v n : Nat) (h : consumeVarint b = some (v, n))
    (hc : c.take n = b.take n) : consumeVarint c = some (v, n) := by
  have h1 := consumeVarint_take b v n n h (Nat.le_refl _)
  have h2 := consumeVarint_append (b.take n) (c.drop n) v n h1
  rwa [← hc, List.take_append_drop] at h2

/-- A value that is not a group is read from its own bytes: any byte sequence
that starts with them gives the same. -/
theorem consumeScalar_of_take_eq (wt : Nat) (b c : Bytes) (v : Nat) (p : Bytes) (m : Nat)
    (h : consumeScalar wt b = some (v, p, m)) (hc : c.take m = b.take m) :
    consumeScalar wt c = some (v, p, m) := by
  have h1 := consumeScalar_take wt b v p m m h (Nat.le_refl _)
  have h2 := consumeScalar_append wt (b.take m) (c.drop m) v p m h1
  rwa [← hc, List.take_append_drop] at h2

/-- A group that was read has at least one byte, no more than there were, and
is read again, with as many rounds as it has bytes, from any byte sequence
that starts with its bytes. -/
theorem consumeGroup_of_take_eq (fuel : Nat) :
    ∀ (num : Nat) (b : Bytes) (m : Nat), consumeGroup fuel num b = some m →
      1 ≤ m ∧ m ≤ b.length
      ∧ ∀ (fuel1 : Nat) (c : Bytes), m ≤ fuel1 → c.take m = b.take m →
          consumeGroup fuel1 num c = some m := by
  induction fuel with
  | zero =>
    intro num b m h
    simp [consumeGroup] at h
  | succ fuel ih =>
    intro num b m h
    rw [consumeGroup] at h
    cases hk : consumeVarint b with
    | none => simp [hk] at h
    | some r =>
      obtain ⟨key, n⟩ := r
      have hn := consumeVarint_bounds _ _ _ hk
      simp only [hk] at h
      by_cases h4 : key % 8 = 4
      · simp only [h4, if_true] at h
        by_cases hnum : key / 8 = num
        · simp only [hnum, if_true, Option.some.injEq] at h
          subst h
          refine ⟨hn.1, hn.2, fun fuel1 c hf hc => ?_⟩
          obtain ⟨g, rfl⟩ : ∃ g, fuel1 = g + 1 := ⟨fuel1 - 1, by omega⟩
          rw [consumeGroup, consumeVarint_of_take_eq b c key n hk hc]
          simp [h4, hnum]
        · simp [hnum] at h
      · simp only [h4, if_false] at h
        -- the nested value: its length, and that it is read again from a prefix
        have hinner : ∃ mi : Nat,
            (if key % 8 = 3 then consumeGroup fuel (key / 8) (b.drop n)
              else
                match consumeScalar (key % 8) (b.drop n) with
                | none => none
                | some (_, _, m) => some m) = some mi
            ∧ mi ≤ (b.drop n).length
            ∧ ∀ (g : Nat) (d : Bytes), mi ≤ g → d.take mi = (b.drop n).take mi →
                (if key % 8 = 3 then consumeGroup g (key / 8) d
                  else
                    match consumeScalar (key % 8) d with
                    | none => none
                    | some (_, _, m) => some m) = some mi := by
          by_cases h3 : key % 8 = 3
          · simp only [h3, if_true] at h ⊢
            cases hg : consumeGroup fuel (key / 8) (b.drop n) with
            | none => simp [hg] at h
            | some mi =>
              have := ih _ _ _ hg
              exact ⟨mi, rfl, this.2.1, this.2.2⟩
          · simp only [h3, if_false] at h ⊢
            cases hs : consumeScalar (key % 8) (b.drop n) with
            | none => simp [hs] at h
            | some r =>
              obtain ⟨v, p, mi⟩ := r
              refine ⟨mi, rfl, consumeScalar_bounds _ _ _ _ _ hs, fun g d _ hd => ?_⟩
              rw [consumeScalar_of_take_eq _ _ d _ _ _ hs hd]
        obtain ⟨mi, hmi, hmile, hmipre⟩ := hinner
        simp only [hmi] at h
        cases hr : consumeGroup fuel num (b.drop (n + mi)) with
        | none => simp [hr] at h
        | some r =>
          simp only [hr, Option.some.injEq] at h
          subst h
          have hrest := ih _ _ _ hr
          simp only [List.length_drop] at hmile hrest
          refine ⟨by omega, by omega, fun fuel1 c hf hc => ?_⟩
          obtain ⟨g, rfl⟩ : ∃ g, fuel1 = g + 1 := ⟨fuel1 - 1, by omega⟩
          have hcn : c.take n = b.take n := take_eq_of_take_eq (by omega) hc
          have hci : (c.drop n).take mi = (b.drop n).take mi :=
            take_drop_eq_of_take_eq (by omega) hc
          have hcr : (c.drop (n + mi)).take r = (b.drop (n + mi)).take r :=
            take_drop_eq_of_take_eq (by omega) hc
          rw [consumeGroup, consumeVarint_of_take_eq b c key n hk hcn]
          simp only [h4, if_false, hmipre g (c.drop n) (by omega) hci,
            hrest.2.2 g (c.drop (n + mi)) (by omega) hcr]

/-- How `consumeFieldValue` succeeds: a group read through its end-group key,
or a value that is not a group. -/
theorem consumeFieldValue_eq_some (num wt : Nat) (b : Bytes) (v : Nat) (p : Bytes) (m : Nat) :
    consumeFieldValue num wt b = some (v, p, m) ↔
      (wt = 3 ∧ consumeGroup b.length num b = some m ∧ v = 0 ∧ p = [])
      ∨ (wt ≠ 3 ∧ consumeScalar wt b = some (v, p, m)) := by
  unfold consumeFieldValue
  by_cases h3 : wt = 3
  · cases hg : consumeGroup b.length num b with
    | none => simp [h3]
    | some m1 =>
      simp only [h3, if_true, Option.some.injEq, Prod.mk.injEq, ne_eq, not_true_eq_false,
        false_and, or_false, true_and]
      constructor
      · rintro ⟨rfl, rfl, rfl⟩
        exact ⟨rfl, rfl, rfl⟩
      · rintro ⟨rfl, rfl, rfl⟩
        exact ⟨rfl, rfl, rfl⟩
  · simp [h3]

theorem consumeFieldValue_bounds (num wt : Nat) (b : Bytes) (v : Nat) (p : Bytes) (m : Nat)
    (h : consumeFieldValue num wt b = some (v, p, m)) : m ≤ b.length := by
  rcases (consumeFieldValue_eq_some num wt b v p m).mp h with ⟨_, hg, _⟩ | ⟨_, hs⟩
  · exact (consumeGroup_of_take_eq _ _ _ _ hg).2.1
  · exact consumeScalar_bounds _ _ _ _ _ hs

/-- The value of an entry is read from its own bytes: any byte sequence that
starts with them gives the same. -/
theorem consumeFieldValue_of_take_eq (num wt : Nat) (b c : Bytes) (v : Nat) (p : Bytes) (m : Nat)
    (h : consumeFieldValue num wt b = some (v, p, m)) (hc : c.take m = b.take m)
    (hlen : m ≤ c.length) : consumeFieldValue num wt c = some (v, p, m) := by
  rw [consumeFieldValue_eq_some] at h ⊢
  rcases h with ⟨h3, hg, hv, hp⟩ | ⟨h3, hs⟩
  · exact Or.inl ⟨h3, (consumeGroup_of_take_eq _ _ _ _ hg).2.2 c.length c hlen hc, hv, hp⟩
  · exact Or.inr ⟨h3, consumeScalar_of_take_eq _ _ c _ _ _ hs hc⟩

/-- The value of an entry is read from its own bytes: what follows does not
matter. -/
theorem consumeFieldValue_append (num wt : Nat) (a rest : Bytes) (v : Nat) (p : Bytes) (m : Nat)
    (h : consumeFieldValue num wt a = some (v, p, m)) :
    consumeFieldValue num wt (a ++ rest) = some (v, p, m) := by
  have hb := consumeFieldValue_bounds _ _ _ _ _ _ h
  refine consumeFieldValue_of_take_eq _ _ a _ _ _ _ h (List.take_append_of_le_length hb) ?_
  simp only [List.length_append]
  omega

/-- The value of an entry is read from its own bytes: the bytes it used are
enough. -/
theorem consumeFieldValue_take (num wt : Nat) (b : Bytes) (v : Nat) (p : Bytes) (m k : Nat)
    (h : consumeFieldValue num wt b = some (v, p, m)) (hk : m ≤ k) :
    consumeFieldValue num wt (b.take k) = some (v, p, m) := by
  have hb := consumeFieldValue_bounds _ _ _ _ _ _ h
  refine consumeFieldValue_of_take_eq _ _ b _ _ _ _ h ?_ ?_
  · rw [List.take_take, Nat.min_eq_left hk]
  · simp only [List.length_take]
    omega

/-- How `consumeEntry` succeeds: a key, then the value its wire type asks
for. -/
theorem consumeEntry_eq_some (b : Bytes) (e : Entry) (t : Nat) :
    consumeEntry b = some (e, t) ↔
      ∃ key n v p m, consumeVarint b = some (key, n)
        ∧ consumeFieldValue (key / 8) (key % 8) (b.drop n) = some (v, p, m)
        ∧ e = { num := key / 8, wt := key % 8, val := v, payload := p, raw := b.take (n + m) }
        ∧ t = n + m := by
  unfold consumeEntry
  cases hk : consumeVarint b with
  | none => simp
  | some r =>
    obtain ⟨key, n⟩ := r
    cases hv : consumeFieldValue (key / 8) (key % 8) (b.drop n) with
    | none =>
      simp only [hv]
      refine ⟨fun h => absurd h (by simp), ?_⟩
      rintro ⟨key1, n1, v, p, m, h1, h2, _⟩
      simp only [Option.some.injEq, Prod.mk.injEq] at h1
      obtain ⟨rfl, rfl⟩ := h1
      rw [hv] at h2
      exact absurd h2 (by simp)
    | some r2 =>
      obtain ⟨v, p, m⟩ := r2
      simp only [hv, Option.some.injEq, Prod.mk.injEq]
      constructor
      · rintro ⟨rfl, rfl⟩
        exact ⟨key, n, v, p, m, ⟨rfl, rfl⟩, hv, rfl, rfl⟩
      · rintro ⟨key1, n1, v1, p1, m1, ⟨rfl, rfl⟩, h2, rfl, rfl⟩
        rw [hv] at h2
        simp only [Option.some.injEq, Prod.mk.injEq] at h2
        obtain ⟨rfl, rfl, rfl⟩ := h2
        exact ⟨rfl, rfl⟩

/-- An entry that was read has at least one byte, no more than there were,
and its `raw` is the bytes read. -/
theorem consumeEntry_bounds (b : Bytes) (e : Entry) (t : Nat)
    (h : consumeEntry b = some (e, t)) :
    1 ≤ t ∧ t ≤ b.length ∧ e.raw = b.take t ∧ e.raw.length = t := by
  obtain ⟨key, n, v, p, m, hk, hv, rfl, rfl⟩ := (consumeEntry_eq_some b e t).mp h
  have h1 := consumeVarint_bounds _ _ _ hk
  have h2 := consumeFieldValue_bounds _ _ _ _ _ _ hv
  simp only [List.length_drop] at h2
  refine ⟨by omega, by omega, rfl, ?_⟩
  simp only [List.length_take]
  omega

/-- An entry is read from its own bytes: what follows does not matter. -/
theorem consumeEntry_append (a rest : Bytes) (e : Entry) (t : Nat)
    (h : consumeEntry a = some (e, t)) : consumeEntry (a ++ rest) = some (e, t) := by
  have hb := consumeEntry_bounds a e t h
  obtain ⟨key, n, v, p, m, hk, hv, rfl, rfl⟩ := (consumeEntry_eq_some a e t).mp h
  have h1 := consumeVarint_bounds _ _ _ hk
  refine (consumeEntry_eq_some _ _ _).mpr
    ⟨key, n, v, p, m, consumeVarint_append a rest key n hk, ?_, ?_, rfl⟩
  · rw [List.drop_append_of_le_length h1.2]
    exact consumeFieldValue_append _ _ _ rest _ _ _ hv
  · rw [List.take_append_of_le_length hb.2.1]

/-- An entry is read from its own bytes: the bytes it used are enough. -/
theorem consumeEntry_take (b : Bytes) (e : Entry) (t : Nat)
    (h : consumeEntry b = some (e, t)) : consumeEntry (b.take t) = some (e, t) := by
  obtain ⟨key, n, v, p, m, hk, hv, rfl, rfl⟩ := (consumeEntry_eq_some b e t).mp h
  refine (consumeEntry_eq_some _ _ _).mpr
    ⟨key, n, v, p, m, consumeVarint_take b key n (n + m) hk (by omega), ?_, ?_, rfl⟩
  · rw [List.drop_take]
    have := consumeFieldValue_take _ _ _ _ _ _ (n + m - n) hv (by omega)
    exact this
  · rw [List.take_take, Nat.min_self]

/-- Every entry that `consumeEntry` returns is well formed. -/
theorem consumeEntry_wellFormed (b : Bytes) (e : Entry) (t : Nat)
    (h : consumeEntry b = some (e, t)) : e.wellFormed := by
  have hb := consumeEntry_bounds b e t h
  unfold Entry.wellFormed
  rw [hb.2.2.2, hb.2.2.1]
  exact consumeEntry_take b e t h

/-- A well-formed entry is read back from the front of any byte sequence that
starts with its bytes. -/
theorem wellFormed_consumeEntry (e : Entry) (rest : Bytes) (h : e.wellFormed) :
    consumeEntry (e.raw ++ rest) = some (e, e.raw.length) :=
  consumeEntry_append e.raw rest e e.raw.length h

theorem wellFormed_raw_ne_nil (e : Entry) (h : e.wellFormed) : e.raw ≠ [] := by
  intro hnil
  have := (consumeEntry_bounds _ _ _ h).1
  simp [hnil] at this

/-! ## Theorems: the decode loop -/

theorem unmarshalLoop_nil (fuel : Nat) (x : DemoConfig) :
    unmarshalLoop fuel [] x = some (none, x) := by
  cases fuel <;> rfl

/-- One round per byte is enough: with at least as many rounds as bytes the
loop ends on its own, and more rounds do not change its result. -/
theorem unmarshalLoop_fuel_aux (n : Nat) :
    ∀ (b : Bytes) (x : DemoConfig) (f1 f2 : Nat), b.length ≤ n → n ≤ f1 → n ≤ f2 →
      unmarshalLoop f1 b x = unmarshalLoop f2 b x
      ∧ (unmarshalLoop f1 b x).isSome = true := by
  induction n with
  | zero =>
    intro b x f1 f2 hb _ _
    have : b = [] := List.eq_nil_of_length_eq_zero (by omega)
    subst this
    simp [unmarshalLoop_nil]
  | succ n ih =>
    intro b x f1 f2 hb h1 h2
    cases b with
    | nil => simp [unmarshalLoop_nil]
    | cons b0 bs =>
      obtain ⟨g1, rfl⟩ : ∃ g, f1 = g + 1 := ⟨f1 - 1, by omega⟩
      obtain ⟨g2, rfl⟩ : ∃ g, f2 = g + 1 := ⟨f2 - 1, by omega⟩
      simp only [unmarshalLoop]
      cases hc : consumeEntry (b0 :: bs) with
      | none => simp
      | some r =>
        obtain ⟨e, t⟩ := r
        have hbd := consumeEntry_bounds _ _ _ hc
        have hlen : ((b0 :: bs).drop t).length ≤ n := by
          simp only [List.length_drop]
          simp only [List.length_cons] at hb hbd ⊢
          omega
        simp only []
        by_cases hm : (e.isMessage && !validUTF8 e.payload) = true
        · simp [hm]
        · simp only [hm, Bool.false_eq_true, if_false]
          exact ih _ _ g1 g2 hlen (by omega) (by omega)

theorem unmarshalLoop_fuel (fuel : Nat) (b : Bytes) (x : DemoConfig) (h : b.length ≤ fuel) :
    unmarshalLoop fuel b x = unmarshalLoop b.length b x
    ∧ (unmarshalLoop b.length b x).isSome = true := by
  have h1 := unmarshalLoop_fuel_aux b.length b x fuel b.length (Nat.le_refl _) h (Nat.le_refl _)
  have h2 := unmarshalLoop_fuel_aux b.length b x b.length b.length
    (Nat.le_refl _) (Nat.le_refl _) (Nat.le_refl _)
  exact ⟨h1.1, h2.2⟩

/-- One round of the loop on a well-formed entry followed by more bytes. -/
theorem unmarshalLoop_entry (fuel : Nat) (e : Entry) (rest : Bytes) (x : DemoConfig)
    (he : e.wellFormed) (h : (e.raw ++ rest).length ≤ fuel) :
    unmarshalLoop fuel (e.raw ++ rest) x
      = if e.isMessage && !validUTF8 e.payload then
          some (some DecodeError.MalformedEncoding, x)
        else unmarshalLoop fuel rest (storeEntry x e) := by
  have hne := wellFormed_raw_ne_nil e he
  have hc := wellFormed_consumeEntry e rest he
  obtain ⟨b0, bs, hb⟩ : ∃ b0 bs, e.raw ++ rest = b0 :: bs := by
    cases hr : e.raw with
    | nil => exact absurd hr hne
    | cons b0 bs => exact ⟨b0, bs ++ rest, rfl⟩
  have hpos : 1 ≤ e.raw.length := by
    cases hr : e.raw with
    | nil => exact absurd hr hne
    | cons _ _ => simp
  obtain ⟨g, rfl⟩ : ∃ g, fuel = g + 1 := ⟨fuel - 1, by simp at h; omega⟩
  have hdrop : (e.raw ++ rest).drop e.raw.length = rest := List.drop_left _ _
  have hrest : rest.length ≤ g := by simp at h; omega
  have hfuel : ∀ y, unmarshalLoop g rest y = unmarshalLoop (g + 1) rest y := fun y =>
    (unmarshalLoop_fuel_aux rest.length rest y g (g + 1) (Nat.le_refl _) hrest (by omega)).1
  rw [hb] at hc hdrop
  rw [hb]
  simp only [unmarshalLoop, hc, hdrop, hfuel]

/-- The loop on a well-formed entry that passes the UTF-8 check, when it is
the message entry, stores the entry and goes on. -/
theorem unmarshalLoop_entry_ok (fuel : Nat) (e : Entry) (rest : Bytes) (x : DemoConfig)
    (he : e.wellFormed) (h : (e.raw ++ rest).length ≤ fuel)
    (hv : e.isMessage = true → validUTF8 e.payload = true) :
    unmarshalLoop fuel (e.raw ++ rest) x = unmarshalLoop fuel rest (storeEntry x e) := by
  rw [unmarshalLoop_entry fuel e rest x he h]
  by_cases hm : e.isMessage = true
  · simp [hm, hv hm]
  · simp [hm]

/-! ## Theorems: UTF-8 -/

/-- The encoder agrees with the UTF-8 encoder of the Lean library on a string
with characters of one, two, three and four bytes. -/
theorem utf8Bytes_sample :
    utf8Bytes "héllo€😀" = "héllo€😀".toUTF8.data.toList.map UInt8.toNat := by
  decide

theorem validUTF8_cons1 (b0 : Nat) (rest : Bytes) (h : b0 < 0x80) :
    validUTF8 (b0 :: rest) = validUTF8 rest := by
  rw [validUTF8.eq_def]; simp [h]

theorem validUTF8_cons2 (b0 b1 : Nat) (rest : Bytes) (h0 : 0xC2 ≤ b0 ∧ b0 ≤ 0xDF)
    (h1 : 0x80 ≤ b1 ∧ b1 ≤ 0xBF) :
    validUTF8 (b0 :: b1 :: rest) = validUTF8 rest := by
  have a1 : ¬ b0 < 0x80 := by omega
  rw [validUTF8.eq_def]; simp [a1, h0, h1]

theorem validUTF8_cons3 (b0 b1 b2 : Nat) (rest : Bytes) (h0 : 0xE0 ≤ b0 ∧ b0 ≤ 0xEF)
    (h1 : (if b0 = 0xE0 then 0xA0 else 0x80) ≤ b1 ∧ b1 ≤ (if b0 = 0xED then 0x9F else 0xBF))
    (h2 : 0x80 ≤ b2 ∧ b2 ≤ 0xBF) :
    validUTF8 (b0 :: b1 :: b2 :: rest) = validUTF8 rest := by
  have a1 : ¬ b0 < 0x80 := by omega
  have a2 : ¬ (0xC2 ≤ b0 ∧ b0 ≤ 0xDF) := by omega
  rw [validUTF8.eq_def]; simp [a1, a2, h0, h1, h2]

theorem validUTF8_cons4 (b0 b1 b2 b3 : Nat) (rest : Bytes) (h0 : 0xF0 ≤ b0 ∧ b0 ≤ 0xF4)
    (h1 : (if b0 = 0xF0 then 0x90 else 0x80) ≤ b1 ∧ b1 ≤ (if b0 = 0xF4 then 0x8F else 0xBF))
    (h2 : 0x80 ≤ b2 ∧ b2 ≤ 0xBF) (h3 : 0x80 ≤ b3 ∧ b3 ≤ 0xBF) :
    validUTF8 (b0 :: b1 :: b2 :: b3 :: rest) = validUTF8 rest := by
  have a1 : ¬ b0 < 0x80 := by omega
  have a2 : ¬ (0xC2 ≤ b0 ∧ b0 ≤ 0xDF) := by omega
  have a3 : ¬ (0xE0 ≤ b0 ∧ b0 ≤ 0xEF) := by omega
  rw [validUTF8.eq_def]; simp [a1, a2, a3, h0, h1, h2, h3]

/-- The UTF-8 bytes of a Unicode scalar value pass the check. -/
theorem validUTF8_utf8EncodeChar (c : Nat) (hc : c < 0xD800 ∨ (0xDFFF < c ∧ c < 0x110000))
    (rest : Bytes) : validUTF8 (utf8EncodeChar c ++ rest) = validUTF8 rest := by
  unfold utf8EncodeChar
  by_cases h1 : c < 0x80
  · simp only [h1, if_true, List.cons_append, List.nil_append]
    exact validUTF8_cons1 _ _ h1
  by_cases h2 : c < 0x800
  · simp only [h1, h2, if_false, if_true, List.cons_append, List.nil_append]
    exact validUTF8_cons2 _ _ _ (by omega) (by omega)
  by_cases h3 : c < 0x10000
  · simp only [h1, h2, h3, if_false, if_true, List.cons_append, List.nil_append]
    refine validUTF8_cons3 _ _ _ _ (by omega) ?_ (by omega)
    split <;> split <;> omega
  · simp only [h1, h2, h3, if_false, List.cons_append, List.nil_append]
    refine validUTF8_cons4 _ _ _ _ _ (by omega) ?_ (by omega) (by omega)
    split <;> split <;> omega

/-- The UTF-8 bytes of every string pass the check. -/
theorem validUTF8_utf8Bytes (s : String) : validUTF8 (utf8Bytes s) = true := by
  unfold utf8Bytes
  induction s.data with
  | nil => rfl
  | cons c cs ih =>
    rw [List.flatMap_cons, validUTF8_utf8EncodeChar c.toNat c.valid]
    exact ih

theorem exists_char_toNat (n : Nat) (h : n < 0xD800 ∨ (0xDFFF < n ∧ n < 0x110000)) :
    ∃ c : Char, c.toNat = n := by
  have hv : n.isValidChar := h
  refine ⟨Char.ofNat n, ?_⟩
  simp only [Char.ofNat, hv, dite_true]
  rfl

theorem utf8EncodeChar_two (b0 b1 : Nat) (h0 : 0xC2 ≤ b0 ∧ b0 ≤ 0xDF)
    (h1 : 0x80 ≤ b1 ∧ b1 ≤ 0xBF) :
    utf8EncodeChar ((b0 - 0xC0) * 0x40 + (b1 - 0x80)) = [b0, b1] := by
  unfold utf8EncodeChar
  have a1 : ¬ ((b0 - 0xC0) * 0x40 + (b1 - 0x80) < 0x80) := by omega
  have a2 : (b0 - 0xC0) * 0x40 + (b1 - 0x80) < 0x800 := by omega
  simp only [a1, a2, if_false, if_true, List.cons.injEq, and_true]
  constructor <;> omega

theorem utf8EncodeChar_three (b0 b1 b2 : Nat) (h0 : 0xE0 ≤ b0 ∧ b0 ≤ 0xEF)
    (h1 : (if b0 = 0xE0 then 0xA0 else 0x80) ≤ b1 ∧ b1 ≤ (if b0 = 0xED then 0x9F else 0xBF))
    (h2 : 0x80 ≤ b2 ∧ b2 ≤ 0xBF) :
    utf8EncodeChar ((b0 - 0xE0) * 0x1000 + (b1 - 0x80) * 0x40 + (b2 - 0x80)) = [b0, b1, b2]
    ∧ ((b0 - 0xE0) * 0x1000 + (b1 - 0x80) * 0x40 + (b2 - 0x80) < 0xD800
        ∨ (0xDFFF < (b0 - 0xE0) * 0x1000 + (b1 - 0x80) * 0x40 + (b2 - 0x80)
            ∧ (b0 - 0xE0) * 0x1000 + (b1 - 0x80) * 0x40 + (b2 - 0x80) < 0x110000)) := by
  unfold utf8EncodeChar
  have hb1 : 0x80 ≤ b1 ∧ b1 ≤ 0xBF := by
    revert h1; split <;> split <;> omega
  have hlo : b0 = 0xE0 → 0xA0 ≤ b1 := by
    intro h; simp only [h, if_true] at h1; exact h1.1
  have hhi : b0 = 0xED → b1 ≤ 0x9F := by
    intro h; simp only [h, if_true] at h1; exact h1.2
  have a1 : ¬ ((b0 - 0xE0) * 0x1000 + (b1 - 0x80) * 0x40 + (b2 - 0x80) < 0x80) := by omega
  have a2 : ¬ ((b0 - 0xE0) * 0x1000 + (b1 - 0x80) * 0x40 + (b2 - 0x80) < 0x800) := by omega
  have a3 : (b0 - 0xE0) * 0x1000 + (b1 - 0x80) * 0x40 + (b2 - 0x80) < 0x10000 := by omega
  simp only [a1, a2, a3, if_false, if_true, List.cons.injEq, and_true]
  refine ⟨⟨by omega, by omega, by omega⟩, ?_⟩
  omega

theorem utf8EncodeChar_four (b0 b1 b2 b3 : Nat) (h0 : 0xF0 ≤ b0 ∧ b0 ≤ 0xF4)
    (h1 : (if b0 = 0xF0 then 0x90 else 0x80) ≤ b1 ∧ b1 ≤ (if b0 = 0xF4 then 0x8F else 0xBF))
    (h2 : 0x80 ≤ b2 ∧ b2 ≤ 0xBF) (h3 : 0x80 ≤ b3 ∧ b3 ≤ 0xBF) :
    utf8EncodeChar ((b0 - 0xF0) * 0x40000 + (b1 - 0x80) * 0x1000 + (b2 - 0x80) * 0x40
        + (b3 - 0x80)) = [b0, b1, b2, b3]
    ∧ 0xDFFF < (b0 - 0xF0) * 0x40000 + (b1 - 0x80) * 0x1000 + (b2 - 0x80) * 0x40 + (b3 - 0x80)
    ∧ (b0 - 0xF0) * 0x40000 + (b1 - 0x80) * 0x1000 + (b2 - 0x80) * 0x40 + (b3 - 0x80)
        < 0x110000 := by
  unfold utf8EncodeChar
  have hb1 : 0x80 ≤ b1 ∧ b1 ≤ 0xBF := by
    revert h1; split <;> split <;> omega
  have hlo : b0 = 0xF0 → 0x90 ≤ b1 := by
    intro h; simp only [h, if_true] at h1; exact h1.1
  have hhi : b0 = 0xF4 → b1 ≤ 0x8F := by
    intro h; simp only [h, if_true] at h1; exact h1.2
  have a3 : ¬ ((b0 - 0xF0) * 0x40000 + (b1 - 0x80) * 0x1000 + (b2 - 0x80) * 0x40
      + (b3 - 0x80) < 0x10000) := by omega
  have a1 : ¬ ((b0 - 0xF0) * 0x40000 + (b1 - 0x80) * 0x1000 + (b2 - 0x80) * 0x40
      + (b3 - 0x80) < 0x80) := by omega
  have a2 : ¬ ((b0 - 0xF0) * 0x40000 + (b1 - 0x80) * 0x1000 + (b2 - 0x80) * 0x40
      + (b3 - 0x80) < 0x800) := by omega
  simp only [a1, a2, a3, if_false, List.cons.injEq, and_true]
  refine ⟨⟨by omega, by omega, by omega, by omega⟩, by omega, by omega⟩

/-- Every byte sequence that passes the check is the UTF-8 of a sequence of
characters. -/
theorem validUTF8_chars (n : Nat) :
    ∀ b : Bytes, b.length ≤ n → validUTF8 b = true →
      ∃ cs : List Char, b = cs.flatMap fun c => utf8EncodeChar c.toNat := by
  induction n using Nat.strong_induction_on with
  | _ n ih =>
    intro b hn hv
    have step : ∀ (c : Nat) (pre rest : Bytes),
        (c < 0xD800 ∨ (0xDFFF < c ∧ c < 0x110000)) → utf8EncodeChar c = pre → pre ≠ [] →
        b = pre ++ rest → validUTF8 rest = true →
        ∃ cs : List Char, b = cs.flatMap fun c => utf8EncodeChar c.toNat := by
      intro c pre rest hc henc hne hb hrest
      have hpos : 1 ≤ pre.length := by
        cases pre with
        | nil => exact absurd rfl hne
        | cons _ _ => simp
      have hlen : rest.length < n := by
        have : b.length = pre.length + rest.length := by rw [hb, List.length_append]
        omega
      obtain ⟨cs, hcs⟩ := ih rest.length hlen rest (Nat.le_refl _) hrest
      obtain ⟨ch, hch⟩ := exists_char_toNat c hc
      exact ⟨ch :: cs, by rw [List.flatMap_cons, hch, henc, hb, hcs]⟩
    rw [validUTF8.eq_def] at hv
    cases b with
    | nil => exact ⟨[], rfl⟩
    | cons b0 bs =>
      simp only at hv
      by_cases h0 : b0 < 0x80
      · simp only [h0, if_true] at hv
        exact step b0 [b0] bs (by omega) (by simp [utf8EncodeChar, h0]) (by simp) rfl hv
      simp only [h0, if_false] at hv
      cases bs with
      | nil => simp at hv
      | cons b1 bs1 =>
        simp only at hv
        by_cases h2 : 0xC2 ≤ b0 ∧ b0 ≤ 0xDF
        · simp only [h2, and_self, if_true, Bool.and_eq_true, decide_eq_true_eq] at hv
          exact step _ [b0, b1] bs1 (by omega) (utf8EncodeChar_two b0 b1 h2 hv.1) (by simp)
            rfl hv.2
        simp only [h2, if_false] at hv
        cases bs1 with
        | nil => simp at hv
        | cons b2 bs2 =>
          simp only at hv
          by_cases h3 : 0xE0 ≤ b0 ∧ b0 ≤ 0xEF
          · simp only [h3, and_self, if_true, Bool.and_eq_true, decide_eq_true_eq] at hv
            have h := utf8EncodeChar_three b0 b1 b2 h3 ⟨hv.1.1, hv.1.2.1⟩ hv.1.2.2
            exact step _ [b0, b1, b2] bs2 h.2 h.1 (by simp) rfl hv.2
          simp only [h3, if_false] at hv
          cases bs2 with
          | nil => simp at hv
          | cons b3 bs3 =>
            simp only at hv
            by_cases h4 : 0xF0 ≤ b0 ∧ b0 ≤ 0xF4
            · simp only [h4, and_self, if_true, Bool.and_eq_true, decide_eq_true_eq] at hv
              have h := utf8EncodeChar_four b0 b1 b2 b3 h4 ⟨hv.1.1, hv.1.2.1⟩
                ⟨hv.1.2.2.1, hv.1.2.2.2.1⟩ hv.1.2.2.2.2
              exact step _ [b0, b1, b2, b3] bs3 (Or.inr h.2) h.1 (by simp) rfl hv.2
            · simp [h4] at hv

/-- The check accepts exactly the UTF-8 bytes of strings. -/
theorem validUTF8_iff (b : Bytes) : validUTF8 b = true ↔ ∃ s : String, b = utf8Bytes s := by
  constructor
  · intro h
    obtain ⟨cs, hcs⟩ := validUTF8_chars b.length b (Nat.le_refl _) h
    exact ⟨String.mk cs, hcs⟩
  · rintro ⟨s, rfl⟩
    exact validUTF8_utf8Bytes s

/-! ## Theorems: encode and decode -/

/-- The entry `encode` writes for a message is a well-formed entry. -/
theorem messageEntry_wellFormed (s : Bytes) : (messageEntry s).wellFormed := by
  unfold Entry.wellFormed
  have hkey : appendVarint (8 * 1 + 2) = [10] := appendVarint_small 10 (by decide)
  refine (consumeEntry_eq_some _ _ _).mpr
    ⟨10, 1, s.length, s, (appendVarint s.length).length + s.length, ?_, ?_, ?_, ?_⟩
  · simp [messageEntry, hkey, consumeVarint]
  · refine (consumeFieldValue_eq_some _ _ _ _ _ _).mpr (Or.inr ⟨by decide, ?_⟩)
    refine (consumeScalar_eq_some _ _ _ _ _).mpr
      (Or.inr (Or.inr (Or.inl ⟨rfl, (appendVarint s.length).length, ?_, ?_, ?_, rfl⟩)))
    · simp only [messageEntry, hkey, List.append_assoc, List.singleton_append, List.drop_succ_cons,
        List.drop_zero]
      exact consumeVarint_appendVarint s.length s
    · simp [messageEntry, hkey]
    · simp [messageEntry, hkey]
  · simp [messageEntry, hkey]
    omega
  · simp [messageEntry, hkey]
    omega

theorem encode_eq (x : DemoConfig) :
    encode x = (if x.Message = [] then [] else (messageEntry x.Message).raw) ++ x.unknownFields :=
  rfl

/-- What `encode` writes is bytes when the message and the unknown fields
are. -/
theorem encode_isBytes (x : DemoConfig) (hm : isBytes x.Message)
    (hu : isBytes x.unknownFields) : isBytes (encode x) := by
  have hkey : appendVarint (8 * 1 + 2) = [10] := appendVarint_small 10 (by decide)
  intro b hb
  unfold encode at hb
  rw [List.mem_append] at hb
  rcases hb with hb | hb
  · by_cases hnil : x.Message = []
    · simp [hnil] at hb
    · simp only [hnil, if_false, hkey, List.mem_append, List.mem_singleton] at hb
      rcases hb with (rfl | hb) | hb
      · omega
      · exact appendVarint_isBytes _ b hb
      · exact hm b hb
  · exact hu b hb

/-- Decoding from any starting instance what `encode` wrote for `s`. -/
theorem unmarshalLoop_messageEntry (s : Bytes) (x : DemoConfig) (h : validUTF8 s = true) :
    unmarshalLoop (messageEntry s).raw.length (messageEntry s).raw x
      = some (none, { x with Message := s }) := by
  have h1 := unmarshalLoop_entry_ok ((messageEntry s).raw ++ []).length (messageEntry s) [] x
    (messageEntry_wellFormed s) (Nat.le_refl _) (fun _ => h)
  rw [List.append_nil] at h1
  rw [h1, unmarshalLoop_nil]
  simp [storeEntry, messageEntry, Entry.isMessage]

/-- C1: for every `DemoConfig` whose `Message` is valid UTF-8 and which has no
unknown fields, decoding what `encode` writes succeeds and gives a fresh
instance with that `Message` and no unknown fields; the UTF-8 bytes of every
string are such a `Message`; the empty string is written as no bytes at all,
and no bytes decode to the empty instance. -/
theorem decode_encode (x : DemoConfig) (hs : validUTF8 x.Message = true)
    (hu : x.unknownFields = []) :
    decode (encode x) = Except.ok { DemoConfig.zero with Message := x.Message }
    ∧ (∃ y, decode (encode x) = Except.ok y ∧ y.Message = x.Message ∧ y.unknownFields = [])
    ∧ (∀ s : String, decode (encode { x with Message := utf8Bytes s })
        = Except.ok { DemoConfig.zero with Message := utf8Bytes s })
    ∧ (x.Message = [] → encode x = [])
    ∧ decode [] = Except.ok DemoConfig.zero := by
  have hd : ∀ m : Bytes, validUTF8 m = true →
      decode (encode { x with Message := m })
        = Except.ok { DemoConfig.zero with Message := m } := by
    intro m hm
    rw [encode_eq]
    simp only [hu, List.append_nil]
    by_cases hnil : m = []
    · simp [hnil, decode, unmarshalLoop, DemoConfig.zero]
    · simp only [hnil, if_false, decode]
      rw [unmarshalLoop_messageEntry m DemoConfig.zero hm]
  have hx := hd x.Message hs
  refine ⟨hx, ⟨_, hx, rfl, rfl⟩, fun s => hd _ (validUTF8_utf8Bytes s), fun hm => ?_, rfl⟩
  rw [encode_eq, hu, List.append_nil]
  simp [hm]

/-- The witness of C1: the message "héllo", six bytes of UTF-8. -/
theorem decode_encode_witness :
    validUTF8 (utf8Bytes "héllo") = true
    ∧ decode (encode { DemoConfig.zero with Message := utf8Bytes "héllo" })
        = Except.ok { DemoConfig.zero with Message := [0x68, 0xC3, 0xA9, 0x6C, 0x6C, 0x6F] } :=
  ⟨by decide,
   (decode_encode { DemoConfig.zero with Message := utf8Bytes "héllo" } (by decide) rfl).1⟩

/-- C2: for a `DemoConfig` with no unknown fields `encode` writes nothing when
`Message` is empty, and otherwise the byte 0x0A, which is the key of tag 1
with wire type 2, then the varint of the number of bytes of `Message`, which
reads back as that number, then the bytes of `Message`; for "hello" that is
`[0x0A, 0x05, 'h', 'e', 'l', 'l', 'o']`. -/
theorem encode_bytes (x : DemoConfig) (hu : x.unknownFields = []) :
    encode x
      = (if x.Message = [] then []
         else [0x0A] ++ appendVarint x.Message.length ++ x.Message)
    ∧ (consumeVarint [0x0A]).map (fun r => (r.1 / 8, r.1 % 8)) = some (1, 2)
    ∧ (∀ rest, consumeVarint (appendVarint x.Message.length ++ rest)
        = some (x.Message.length, (appendVarint x.Message.length).length))
    ∧ encode { x with Message := utf8Bytes "hello" } = [0x0A, 0x05, 0x68, 0x65, 0x6C, 0x6C, 0x6F]
    ∧ [0x68, 0x65, 0x6C, 0x6C, 0x6F] = ['h', 'e', 'l', 'l', 'o'].map Char.toNat := by
  have hkey : appendVarint (8 * 1 + 2) = [10] := appendVarint_small 10 (by decide)
  refine ⟨?_, by decide, fun rest => consumeVarint_appendVarint _ rest, ?_, by decide⟩
  · simp [encode, hu, hkey]
  · have h5 : appendVarint 5 = [5] := appendVarint_small 5 (by decide)
    have hh : utf8Bytes "hello" = [0x68, 0x65, 0x6C, 0x6C, 0x6F] := by decide
    simp [encode, hu, hkey, hh, h5]

/-- The witness of C2: the message "hello" in a fresh instance. -/
theorem encode_bytes_witness :
    encode { DemoConfig.zero with Message := utf8Bytes "hello" }
      = [0x0A, 0x05, 0x68, 0x65, 0x6C, 0x6C, 0x6F] :=
  (encode_bytes { DemoConfig.zero with Message := utf8Bytes "hello" } rfl).2.2.2.1

theorem entriesBytes_cons (e : Entry) (es : List Entry) :
    entriesBytes (e :: es) = e.raw ++ entriesBytes es := by
  simp [entriesBytes]

/-- What storing a run of entries leaves in the unknown fields: what was
there, then the bytes of every entry that is not the message entry, in
order. -/
theorem foldl_storeEntry_unknownFields (es : List Entry) :
    ∀ x : DemoConfig, (es.foldl storeEntry x).unknownFields
      = x.unknownFields ++ entriesBytes (es.filter (fun e => !e.isMessage)) := by
  induction es with
  | nil => intro x; simp [entriesBytes]
  | cons e es ih =>
    intro x
    rw [List.foldl_cons, ih]
    by_cases hm : e.isMessage = true
    · simp [storeEntry, List.filter_cons, hm]
    · simp only [Bool.not_eq_true] at hm
      simp [storeEntry, List.filter_cons, hm, entriesBytes_cons, List.append_assoc]

/-- When the loop ends without an error on a run of well-formed entries, it
has stored every one of them. -/
theorem unmarshalLoop_entries (es : List Entry) (hes : ∀ e ∈ es, e.wellFormed) :
    ∀ (fuel : Nat) (x y : DemoConfig), (entriesBytes es).length ≤ fuel →
      unmarshalLoop fuel (entriesBytes es) x = some (none, y) →
      y = es.foldl storeEntry x := by
  induction es with
  | nil =>
    intro fuel x y _ h
    simp only [entriesBytes, List.map_nil, List.flatten_nil, unmarshalLoop_nil,
      Option.some.injEq, Prod.mk.injEq, true_and] at h
    simp [h]
  | cons e es ih =>
    intro fuel x y hf h
    have he : e.wellFormed := hes e (List.mem_cons_self _ _)
    have hes1 : ∀ e1 ∈ es, e1.wellFormed := fun e1 h1 => hes e1 (List.mem_cons_of_mem _ h1)
    rw [entriesBytes_cons] at hf h
    rw [unmarshalLoop_entry fuel e _ x he hf] at h
    have hf1 : (entriesBytes es).length ≤ fuel := by
      simp only [List.length_append] at hf
      omega
    by_cases hm : (e.isMessage && !validUTF8 e.payload) = true
    · simp [hm] at h
    · simp only [hm, Bool.false_eq_true, if_false] at h
      rw [List.foldl_cons]
      exact ih hes1 fuel _ y hf1 h

/-- Every byte sequence the loop accepts is a run of well-formed entries. -/
theorem unmarshalLoop_ok_entries (fuel : Nat) :
    ∀ (b : Bytes) (x y : DemoConfig), unmarshalLoop fuel b x = some (none, y) →
      ∃ es : List Entry, (∀ e ∈ es, e.wellFormed) ∧ entriesBytes es = b := by
  induction fuel with
  | zero =>
    intro b x y h
    cases b with
    | nil => exact ⟨[], by simp, rfl⟩
    | cons b0 bs => simp [unmarshalLoop] at h
  | succ fuel ih =>
    intro b x y h
    cases b with
    | nil => exact ⟨[], by simp, rfl⟩
    | cons b0 bs =>
      simp only [unmarshalLoop] at h
      cases hc : consumeEntry (b0 :: bs) with
      | none => simp [hc] at h
      | some r =>
        obtain ⟨e, t⟩ := r
        simp only [hc] at h
        have hb := consumeEntry_bounds _ _ _ hc
        have hw := consumeEntry_wellFormed _ _ _ hc
        have hrest : ∃ es : List Entry, (∀ e1 ∈ es, e1.wellFormed)
            ∧ entriesBytes es = (b0 :: bs).drop t := by
          by_cases hm : (e.isMessage && !validUTF8 e.payload) = true
          · simp [hm] at h
          · simp only [hm, Bool.false_eq_true, if_false] at h
            exact ih _ _ y h
        obtain ⟨es, hes, hbytes⟩ := hrest
        refine ⟨e :: es, ?_, ?_⟩
        · intro e1 h1
          rcases List.mem_cons.mp h1 with rfl | h1
          · exact hw
          · exact hes e1 h1
        · rw [entriesBytes_cons, hbytes, hb.2.2.1]
          exact List.take_append_drop t (b0 :: bs)

theorem decode_eq_ok (b : Bytes) (y : DemoConfig) :
    decode b = Except.ok y ↔ unmarshalLoop b.length b DemoConfig.zero = some (none, y) := by
  unfold decode
  cases hl : unmarshalLoop b.length b DemoConfig.zero with
  | none => simp
  | some r =>
    obtain ⟨err, x⟩ := r
    cases err <;> simp

theorem decode_eq_error (b : Bytes) (y : DemoConfig)
    (h : unmarshalLoop b.length b DemoConfig.zero
      = some (some DecodeError.MalformedEncoding, y)) :
    decode b = Except.error DecodeError.MalformedEncoding := by
  unfold decode
  rw [h]

theorem filter_tag_sublist (es : List Entry) :
    (es.filter (fun e => decide (e.num ≠ 1))).Sublist (es.filter (fun e => !e.isMessage)) := by
  induction es with
  | nil => simp
  | cons e es ih =>
    by_cases h1 : e.num = 1
    · by_cases hm : e.isMessage = true
      · simpa [List.filter_cons, h1, hm] using ih
      · simp only [Bool.not_eq_true] at hm
        simpa [List.filter_cons, h1, hm] using ih.trans (List.sublist_cons_self _ _)
    · have hm : e.isMessage = false := by simp [Entry.isMessage, h1]
      simpa [List.filter_cons, h1, hm] using ih

/-- C7: a byte sequence that decodes is a run of well-formed entries, and for
every way of reading it as such a run the unknown-fields slot of the decoded
instance holds the bytes of the entries other than the tag-1 length-delimited
one, all entries with another tag among them, groups included, byte for byte
and in their order; `encode` of the decoded instance writes the message
entry, when the message is not empty, and then exactly those bytes. -/
theorem decode_keeps_unknown_fields (b : Bytes) (x : DemoConfig)
    (h : decode b = Except.ok x) :
    (∃ es : List Entry, (∀ e ∈ es, e.wellFormed) ∧ entriesBytes es = b)
    ∧ ∀ es : List Entry, (∀ e ∈ es, e.wellFormed) → entriesBytes es = b →
        x.unknownFields = entriesBytes (es.filter (fun e => !e.isMessage))
        ∧ (es.filter (fun e => decide (e.num ≠ 1))).Sublist
            (es.filter (fun e => !e.isMessage))
        ∧ encode x
            = (if x.Message = [] then [] else (messageEntry x.Message).raw)
              ++ entriesBytes (es.filter (fun e => !e.isMessage)) := by
  have hl := (decode_eq_ok b x).mp h
  refine ⟨unmarshalLoop_ok_entries _ _ _ _ hl, fun es hes hb => ?_⟩
  subst hb
  have hx := unmarshalLoop_entries es hes _ DemoConfig.zero x (Nat.le_refl _) hl
  have hu : x.unknownFields = entriesBytes (es.filter (fun e => !e.isMessage)) := by
    rw [hx, foldl_storeEntry_unknownFields]
    simp [DemoConfig.zero]
  refine ⟨hu, filter_tag_sublist es, ?_⟩
  rw [encode_eq, hu]

/-- The witness of C7: a group with tag 2 that holds a varint entry, the
message "A", and a length-delimited entry with tag 3. -/
theorem decode_keeps_unknown_fields_witness :
    decode [0x13, 0x08, 0x96, 0x01, 0x14, 0x0A, 0x01, 0x41, 0x1A, 0x02, 0x07, 0x08]
      = Except.ok { DemoConfig.zero with
          Message := [0x41],
          unknownFields := [0x13, 0x08, 0x96, 0x01, 0x14, 0x1A, 0x02, 0x07, 0x08] }
    ∧ ∃ es : List Entry, (∀ e ∈ es, e.wellFormed)
        ∧ entriesBytes es
            = [0x13, 0x08, 0x96, 0x01, 0x14, 0x0A, 0x01, 0x41, 0x1A, 0x02, 0x07, 0x08] :=
  ⟨by decide,
   (decode_keeps_unknown_fields
      [0x13, 0x08, 0x96, 0x01, 0x14, 0x0A, 0x01, 0x41, 0x1A, 0x02, 0x07, 0x08]
      { DemoConfig.zero with
        Message := [0x41],
        unknownFields := [0x13, 0x08, 0x96, 0x01, 0x14, 0x1A, 0x02, 0x07, 0x08] }
      (by decide)).1⟩

/-- The loop stops with `MalformedEncoding` at a length-delimited entry whose
length prefix asks for more bytes than are left, and leaves the instance it
was working on as it is at that point. -/
theorem unmarshalLoop_truncated (key len rest : Bytes) (k n : Nat)
    (hkey : consumeVarint key = some (k, key.length)) (hwt : k % 8 = 2)
    (hlen : consumeVarint len = some (n, len.length)) (hrest : rest.length < n)
    (fuel : Nat) (x : DemoConfig) (hf : (key ++ len ++ rest).length ≤ fuel) :
    unmarshalLoop fuel (key ++ len ++ rest) x
      = some (some DecodeError.MalformedEncoding, x) := by
  have hk1 := (consumeVarint_bounds _ _ _ hkey).1
  have hnone : consumeEntry (key ++ len ++ rest) = none := by
    cases hc : consumeEntry (key ++ len ++ rest) with
    | none => rfl
    | some r =>
      obtain ⟨e, t⟩ := r
      obtain ⟨key1, n1, v, p, m, h1, h2, _, _⟩ := (consumeEntry_eq_some _ _ _).mp hc
      rw [List.append_assoc, consumeVarint_append key (len ++ rest) k key.length hkey] at h1
      simp only [Option.some.injEq, Prod.mk.injEq] at h1
      obtain ⟨rfl, rfl⟩ := h1
      rw [List.append_assoc, List.drop_left] at h2
      rcases (consumeFieldValue_eq_some _ _ _ _ _ _).mp h2 with ⟨hw, _⟩ | ⟨_, h2⟩
      · omega
      rcases (consumeScalar_eq_some _ _ _ _ _).mp h2 with
        ⟨hw, _⟩ | ⟨hw, _⟩ | ⟨_, n2, hv, hle, _⟩ | ⟨hw, _⟩
      · omega
      · omega
      · rw [consumeVarint_append len rest n len.length hlen] at hv
        simp only [Option.some.injEq, Prod.mk.injEq] at hv
        obtain ⟨rfl, rfl⟩ := hv
        simp only [List.length_append] at hle
        omega
      · omega
  obtain ⟨b0, bs, hb⟩ : ∃ b0 bs, key ++ len ++ rest = b0 :: bs := by
    cases hkk : key with
    | nil => simp [hkk] at hk1
    | cons b0 bs => exact ⟨b0, bs ++ len ++ rest, by simp⟩
  rw [hb] at hnone hf ⊢
  obtain ⟨g, rfl⟩ : ∃ g, fuel = g + 1 := ⟨fuel - 1, by simp at hf; omega⟩
  simp [unmarshalLoop, hnone]

/-- When the loop fails on the bytes that follow a run of well-formed entries,
it fails on the whole, and the instance then holds the entries of the run it
had stored: the first `j` of them, all of them when the message entries of
the run are valid UTF-8. -/
theorem unmarshalLoop_entries_error (tail : Bytes)
    (htail : ∀ (fuel : Nat) (y : DemoConfig), tail.length ≤ fuel →
      unmarshalLoop fuel tail y = some (some DecodeError.MalformedEncoding, y))
    (es : List Entry) (hes : ∀ e ∈ es, e.wellFormed) :
    ∀ (fuel : Nat) (x : DemoConfig), (entriesBytes es ++ tail).length ≤ fuel →
      ∃ j : Nat, j ≤ es.length
        ∧ unmarshalLoop fuel (entriesBytes es ++ tail) x
            = some (some DecodeError.MalformedEncoding, (es.take j).foldl storeEntry x)
        ∧ ((∀ e ∈ es, e.isMessage = true → validUTF8 e.payload = true) → j = es.length) := by
  induction es with
  | nil =>
    intro fuel x hf
    refine ⟨0, Nat.le_refl _, ?_, fun _ => rfl⟩
    simpa [entriesBytes] using htail fuel x (by simpa [entriesBytes] using hf)
  | cons e es ih =>
    intro fuel x hf
    have he : e.wellFormed := hes e (List.mem_cons_self _ _)
    have hes1 : ∀ e1 ∈ es, e1.wellFormed := fun e1 h1 => hes e1 (List.mem_cons_of_mem _ h1)
    rw [entriesBytes_cons, List.append_assoc] at hf ⊢
    rw [unmarshalLoop_entry fuel e _ x he hf]
    have hf1 : (entriesBytes es ++ tail).length ≤ fuel := by
      simp only [List.length_append] at hf ⊢
      omega
    by_cases hm : (e.isMessage && !validUTF8 e.payload) = true
    · refine ⟨0, Nat.zero_le _, by simp [hm], fun hv => ?_⟩
      simp only [Bool.and_eq_true, Bool.not_eq_true', ] at hm
      have := hv e (List.mem_cons_self _ _) hm.1
      rw [hm.2] at this
      exact absurd this (by simp)
    · obtain ⟨j, hj, hrun, hall⟩ := ih hes1 fuel (storeEntry x e) hf1
      refine ⟨j + 1, by simp only [List.length_cons]; omega, ?_, fun hv => ?_⟩
      · simp only [hm, Bool.false_eq_true, if_false, hrun, List.take_succ_cons, List.foldl_cons]
      · rw [hall (fun e1 h1 => hv e1 (List.mem_cons_of_mem _ h1)), List.length_cons]

/-- C8, as amended: when, after any run of well-formed entries, a
length-delimited entry (a key of wire type 2, then a length prefix) declares
more bytes than are left after its length prefix, `decode` fails with
`MalformedEncoding`, and so does decoding into a target; the target is not
left as it was: it is reset and then holds the entries of the run read before
the failure, all of them when the message entries of the run are valid UTF-8,
whatever it held before the call. -/
theorem decode_truncated (unsafeEnabled : Bool) (target : DemoConfig) (pre : List Entry)
    (key len rest : Bytes) (k n : Nat) (hpre : ∀ e ∈ pre, e.wellFormed)
    (hkey : consumeVarint key = some (k, key.length)) (hwt : k % 8 = 2)
    (hlen : consumeVarint len = some (n, len.length)) (hrest : rest.length < n) :
    decode (entriesBytes pre ++ (key ++ len ++ rest))
      = Except.error DecodeError.MalformedEncoding
    ∧ (decodeInto unsafeEnabled target (entriesBytes pre ++ (key ++ len ++ rest))).1
      = Except.error DecodeError.MalformedEncoding
    ∧ (∃ j : Nat, j ≤ pre.length
        ∧ (decodeInto unsafeEnabled target (entriesBytes pre ++ (key ++ len ++ rest))).2
          = (pre.take j).foldl storeEntry (DemoConfig.Reset unsafeEnabled target))
    ∧ ((∀ e ∈ pre, e.isMessage = true → validUTF8 e.payload = true) →
        (decodeInto unsafeEnabled target (entriesBytes pre ++ (key ++ len ++ rest))).2
          = pre.foldl storeEntry (DemoConfig.Reset unsafeEnabled target))
    ∧ (∀ other : DemoConfig,
        decodeInto unsafeEnabled other (entriesBytes pre ++ (key ++ len ++ rest))
          = decodeInto unsafeEnabled target (entriesBytes pre ++ (key ++ len ++ rest))) := by
  have hrun := unmarshalLoop_entries_error (key ++ len ++ rest)
    (fun fuel y hf => unmarshalLoop_truncated key len rest k n hkey hwt hlen hrest fuel y hf)
    pre hpre
  obtain ⟨j0, _, h0, _⟩ := hrun _ DemoConfig.zero (Nat.le_refl _)
  obtain ⟨j, hj, h1, hall⟩ := hrun _ (DemoConfig.Reset unsafeEnabled target) (Nat.le_refl _)
  refine ⟨decode_eq_error _ _ h0, ?_, ⟨j, hj, ?_⟩, fun hv => ?_, fun other => rfl⟩
  · unfold decodeInto
    rw [h1]
  · unfold decodeInto
    rw [h1]
  · unfold decodeInto
    rw [h1, hall hv, List.take_length]

/-- The witness of C8: after the well-formed varint entry `10 96 01` the
message entry `0A 05 68 65 6C` declares five bytes and three are left. -/
theorem decode_truncated_witness :
    (decodeInto true
        { state := some 0, sizeCache := 7, unknownFields := [0x10, 0x01], Message := [0x41] }
        [0x10, 0x96, 0x01, 0x0A, 0x05, 0x68, 0x65, 0x6C]).2
      = { state := some 0, sizeCache := 0, unknownFields := [0x10, 0x96, 0x01], Message := [] } :=
  (decode_truncated true
    { state := some 0, sizeCache := 7, unknownFields := [0x10, 0x01], Message := [0x41] }
    [{ num := 2, wt := 0, val := 150, payload := [], raw := [0x10, 0x96, 0x01] }]
    [0x0A] [0x05] [0x68, 0x65, 0x6C] 10 5
    (by decide) (by decide) (by decide) (by decide) (by decide)).2.2.2.1 (by decide)

/-- C8 as stated fails: decoding the truncated bytes `10 96 01 0A 05 68 65 6C`
into a target that holds the message "A", unknown fields and a size fails
with `MalformedEncoding` and leaves a target that has lost all three and
holds the unknown entry `10 96 01`, read before the failure. -/
theorem decode_truncated_overwrites_target :
    decodeInto true
        { state := some 0, sizeCache := 7, unknownFields := [0x10, 0x01], Message := [0x41] }
        [0x10, 0x96, 0x01, 0x0A, 0x05, 0x68, 0x65, 0x6C]
      = (Except.error DecodeError.MalformedEncoding,
         { state := some 0, sizeCache := 0, unknownFields := [0x10, 0x96, 0x01], Message := [] })
    ∧ (decodeInto true
        { state := some 0, sizeCache := 7, unknownFields := [0x10, 0x01], Message := [0x41] }
        [0x10, 0x96, 0x01, 0x0A, 0x05, 0x68, 0x65, 0x6C]).2
      ≠ { state := some 0, sizeCache := 7, unknownFields := [0x10, 0x01], Message := [0x41] }
    ∧ (decodeInto false
        { state := some 0, sizeCache := 7, unknownFields := [0x10, 0x01], Message := [0x41] }
        [0x10, 0x96, 0x01, 0x0A, 0x05, 0x68, 0x65, 0x6C]).2
      ≠ { state := some 0, sizeCache := 7, unknownFields := [0x10, 0x01], Message := [0x41] } := by
  refine ⟨by decide, by decide, by decide⟩

end Demo
